import Mathlib

/-
  Verification development for the DocuSpec document-parsing and
  material-extraction pipeline.

  Strings are modelled as lists of characters (`Str`), which keeps every
  operation executable and induction-friendly.  Each definition below is a
  direct shallow embedding of a function of the TypeScript source
  (src/lib/parser.ts, src/lib/tableClassifier.ts, src/lib/canonical.ts,
  src/lib/extraction.ts, src/hooks/useExtraction.ts); the source file and
  function are named in the doc comments.  JavaScript numbers are modelled
  as exact rationals (plus signed infinities); the IEEE-754 rounding of
  `parseFloat` and the exponent display forms of `Number.prototype.toString`
  are outside the model — all quantities exercised here are short decimal
  literals on which the rational model and the float semantics agree.
-/

namespace DocuSpec

/-- Strings as lists of characters. -/
abbrev Str := List Char

/-- Turn a Lean string literal into the `Str` model. -/
def str (s : String) : Str := s.data

/-- Character class of the JavaScript regex `\s` (also the class trimmed by
`String.prototype.trim`): ASCII whitespace, NBSP, the Unicode space
separators, line separators and BOM. -/
def isJsWs (c : Char) : Bool :=
  -- space, tab, LF, CR, VT, FF, NBSP, Ogham mark, U+2000–U+200A,
  -- LS, PS, NNBSP, MMSP, ideographic space, BOM (by code point).
  c.toNat = 32 || c.toNat = 9 || c.toNat = 10 || c.toNat = 13 ||
  c.toNat = 0x0b || c.toNat = 0x0c || c.toNat = 0xa0 || c.toNat = 0x1680 ||
  (0x2000 ≤ c.toNat && c.toNat ≤ 0x200a) ||
  c.toNat = 0x2028 || c.toNat = 0x2029 || c.toNat = 0x202f ||
  c.toNat = 0x205f || c.toNat = 0x3000 || c.toNat = 0xfeff

/-- JavaScript regex line terminators (the characters `.` does not match):
LF, CR, LS, PS (by code point). -/
def isLineTerm (c : Char) : Bool :=
  c.toNat = 10 || c.toNat = 13 || c.toNat = 0x2028 || c.toNat = 0x2029

/-- ASCII digit, the class `\d` of a JavaScript regex without the `u` flag. -/
def isDigit (c : Char) : Bool := '0' ≤ c && c ≤ '9'

/-- Lower-case Latin letter or ASCII digit (the class `[a-z0-9]`). -/
def isLowAlnum (c : Char) : Bool := ('a' ≤ c && c ≤ 'z') || ('0' ≤ c && c ≤ '9')

/-- Upper-case Latin letter or ASCII digit (the class `[A-Z0-9]`). -/
def isUpperAlnum (c : Char) : Bool := ('A' ≤ c && c ≤ 'Z') || ('0' ≤ c && c ≤ '9')

/-- Model of `String.prototype.toLowerCase` restricted to the alphabets this
program manipulates: ASCII and the Russian Cyrillic block (А–Я plus Ё). -/
def lowerChar (c : Char) : Char :=
  if 'A' ≤ c ∧ c ≤ 'Z' then Char.ofNat (c.toNat + 32)
  else if 'А' ≤ c ∧ c ≤ 'Я' then Char.ofNat (c.toNat + 32)
  else if c = 'Ё' then 'ё'
  else c

/-- Does `p` occur at the very beginning of `s`? -/
def startsWithSeq : Str → Str → Bool
  | [], _ => true
  | _ :: _, [] => false
  | p :: ps, c :: cs => p = c && startsWithSeq ps cs

/-- If `p` is an initial segment of `s`, return the remainder of `s`. -/
def dropPrefixSeq : Str → Str → Option Str
  | [], s => some s
  | _ :: _, [] => none
  | p :: ps, c :: cs => if p = c then dropPrefixSeq ps cs else none

/-- Substring test (model of `String.prototype.includes`). -/
def containsSeq (needle : Str) : Str → Bool
  | [] => needle.isEmpty
  | c :: cs => startsWithSeq needle (c :: cs) || containsSeq needle cs

/-- Model of `String.prototype.split` with a one-character separator:
`n` separators yield `n + 1` groups, so the empty string yields `[[]]`. -/
def splitOnChar (sep : Char) : Str → List Str
  | [] => [[]]
  | c :: cs =>
    if c = sep then [] :: splitOnChar sep cs
    else
      match splitOnChar sep cs with
      | [] => [[c]]
      | g :: gs => (c :: g) :: gs

/-- Model of `String.prototype.trim`: drop the leading whitespace run, then
the trailing one (via reversal). -/
def jsTrim (s : Str) : Str :=
  ((s.dropWhile isJsWs).reverse.dropWhile isJsWs).reverse

/-- Model of `Array.prototype.join('\n')`. -/
def joinLines : List Str → Str
  | [] => []
  | [l] => l
  | l :: ls => l ++ '\n' :: joinLines ls

/-- Decimal digit string of a natural number. -/
def natDigits (n : Nat) : Str := Nat.toDigits 10 n

/-- Numeric value of a digit string (model of `parseInt(s, 10)` on all-digit
input; page numbers are small, so double rounding is immaterial). -/
def digitsToNat (ds : Str) : Nat := ds.foldl (fun n c => 10 * n + (c.toNat - 48)) 0

/- ──────────────────────────  src/lib/canonical.ts  ────────────────────────── -/

/-- The `RU_TO_LAT` transliteration table of src/lib/canonical.ts, as an
association list (lower-case Cyrillic keys only, exactly as in the source). -/
def RU_TO_LAT : List (Char × Str) :=
  [('а', str "a"), ('б', str "b"), ('в', str "v"), ('г', str "g"), ('д', str "d"),
   ('е', str "e"), ('ё', str "yo"), ('ж', str "zh"), ('з', str "z"), ('и', str "i"),
   ('й', str "y"), ('к', str "k"), ('л', str "l"), ('м', str "m"), ('н', str "n"),
   ('о', str "o"), ('п', str "p"), ('р', str "r"), ('с', str "s"), ('т', str "t"),
   ('у', str "u"), ('ф', str "f"), ('х', str "kh"), ('ц', str "ts"), ('ч', str "ch"),
   ('ш', str "sh"), ('щ', str "shch"), ('ъ', str ""), ('ы', str "y"), ('ь', str ""),
   ('э', str "e"), ('ю', str "yu"), ('я', str "ya")]

/-- Lookup in the transliteration table (`RU_TO_LAT[char] ?? char` uses the
mapped string when the key is present). -/
def ruToLat (c : Char) : Option Str := (RU_TO_LAT.find? (fun p => p.1 = c)).map (·.2)

/-- Model of `transliterate` of src/lib/canonical.ts: lower-case, then map
every character through `RU_TO_LAT`, keeping unmapped characters. -/
def transliterate (text : Str) : Str :=
  (text.map lowerChar).flatMap (fun c => (ruToLat c).getD [c])

/-- Model of `.replace(/[^a-z0-9]+/g, '_')`: every maximal run of characters
outside `[a-z0-9]` becomes a single underscore. -/
def collapseNonAlnum : Str → Str
  | [] => []
  | [c] => if isLowAlnum c then [c] else ['_']
  | c :: d :: cs =>
    if isLowAlnum c then c :: collapseNonAlnum (d :: cs)
    else if isLowAlnum d then '_' :: collapseNonAlnum (d :: cs)
    else collapseNonAlnum (d :: cs)

/-- Model of `.replace(/^_+|_+$/g, '')`: drop the leading and the trailing
run of underscores. -/
def trimUnderscores (s : Str) : Str :=
  ((s.dropWhile (· = '_')).reverse.dropWhile (· = '_')).reverse

/-- Model of `.replace(/_+/g, '_')`: collapse every run of underscores to one. -/
def collapseUnderscores : Str → Str
  | [] => []
  | [c] => [c]
  | c :: d :: cs =>
    if c = '_' && d = '_' then collapseUnderscores (d :: cs)
    else c :: collapseUnderscores (d :: cs)

/-- Model of `slugify` of src/lib/canonical.ts. -/
def slugify (text : Str) : Str :=
  collapseUnderscores (trimUnderscores (collapseNonAlnum (transliterate text)))

/-- Case-insensitive literal match at the head of the input: `lit` must be
given lower-cased; on success the rest of the input is returned. -/
def matchLitCI : Str → Str → Option Str
  | [], s => some s
  | _ :: _, [] => none
  | l :: ls, c :: cs => if lowerChar c = l then matchLitCI ls cs else none

/-- Try to match the regex `\s*lit` (case-insensitive) at the head of `s`.
Since `lit` starts with a non-whitespace character, the greedy `\s*` is
forced to consume exactly the maximal whitespace run. -/
def tryNoise (lit : Str) (s : Str) : Option Str := matchLitCI lit (s.dropWhile isJsWs)

/-- Fuel-driven global replacement of `\s*lit` by the empty string, scanning
left to right exactly like a `/g` regex replace.  Each successful match
consumes at least one character (the literals used are non-empty), so fuel
equal to the length of the string always suffices; the fuel only makes the
recursion structural. -/
def replaceNoiseAux (lit : Str) : Nat → Str → Str
  | 0, s => s
  | _ + 1, [] => []
  | n + 1, c :: cs =>
    match tryNoise lit (c :: cs) with
    | some rest => replaceNoiseAux lit n rest
    | none => c :: replaceNoiseAux lit n cs

/-- Model of `.replace(/\s*lit/gi, '')`. -/
def replaceNoise (lit : Str) (s : Str) : Str := replaceNoiseAux lit s.length s

/-- Model of `.replace(/["«»]/g, '')`. -/
def removeQuotes (s : Str) : Str := s.filter (fun c => !(c = '"' || c = '«' || c = '»'))

/-- Model of `generateCanonicalKey` of src/lib/canonical.ts: strip the noise
phrases `(или аналог)`, `или аналог`, `аналог` (each with its leading
whitespace, case-insensitively) and the quote characters, trim, then slugify.
(Marked irreducible so that elaboration never tries to reduce an application
to a symbolic argument; proofs unfold it explicitly.) -/
@[irreducible] def generateCanonicalKey (name : Str) : Str :=
  let cleaned :=
    jsTrim (removeQuotes
      (replaceNoise (str "аналог")
        (replaceNoise (str "или аналог")
          (replaceNoise (str "(или аналог)") name))))
  slugify cleaned

/- ─────────────────────────  JavaScript numbers  ───────────────────────── -/

/-- A JavaScript number that is not NaN: an exact rational or a signed
infinity (`inf true` is `+Infinity`). -/
inductive JsNum where
  | fin : ℚ → JsNum
  | inf : Bool → JsNum
deriving DecidableEq, Repr

/-- Smallest `k` with `d ∣ 10 ^ k`, when one exists (with `k ≤ d`, which is
enough: for `d = 2^a * 5^b` the smallest such `k` is `max a b ≤ d`). -/
def tenPowDiv (d : Nat) : Option Nat :=
  (List.range (d + 1)).find? (fun k => 10 ^ k % d == 0)

/-- Left-pad a digit string with zeros to the given length. -/
def padZeros (n : Nat) (s : Str) : Str := List.replicate (n - s.length) '0' ++ s

/-- Model of `Number.prototype.toString` on the rational model: the exact
(shortest) decimal expansion when the denominator divides a power of ten,
`Infinity` forms for the infinities.  Like the JavaScript rendering it is
injective, which is all the deduplication key construction relies on;
the exponent display used for very large or very small magnitudes is not
reproduced (no such quantity has a short-decimal source here). -/
def jsNumToStr : JsNum → Str
  | .inf true => str "Infinity"
  | .inf false => str "-Infinity"
  | .fin q =>
    let sgn : Str := if q < 0 then ['-'] else []
    let a := q.num.natAbs
    let d := q.den
    match tenPowDiv d with
    | some 0 => sgn ++ natDigits a
    | some k =>
      let m := a * (10 ^ k / d)
      sgn ++ natDigits (m / 10 ^ k) ++ '.' :: padZeros k (natDigits (m % 10 ^ k))
    | none => sgn ++ natDigits a ++ '/' :: natDigits d

/-- Model of `parseFloat`: skip leading whitespace, read an optional sign,
then either `Infinity` or the longest decimal-with-optional-exponent
numeral; `none` models NaN (no numeric head at all).  A trailing incomplete
exponent marker is ignored, as `parseFloat` backtracks it. -/
def parseFloatQ (s : Str) : Option JsNum :=
  let s1 := s.dropWhile isJsWs
  let (neg, s2) : Bool × Str :=
    match s1 with
    | '-' :: r => (true, r)
    | '+' :: r => (false, r)
    | r => (false, r)
  if startsWithSeq (str "Infinity") s2 then some (.inf !neg)
  else
    let ip := s2.takeWhile isDigit
    let r1 := s2.drop ip.length
    let (fp, r2) : Str × Str :=
      match r1 with
      | '.' :: r => (r.takeWhile isDigit, r.drop (r.takeWhile isDigit).length)
      | r => ([], r)
    if ip = [] ∧ fp = [] then none
    else
      let ex : ℤ :=
        match r2 with
        | c :: r3 =>
          if c = 'e' ∨ c = 'E' then
            match r3 with
            | '-' :: r4 =>
              let ds := r4.takeWhile isDigit
              if ds = [] then 0 else -(digitsToNat ds : ℤ)
            | '+' :: r4 =>
              let ds := r4.takeWhile isDigit
              if ds = [] then 0 else (digitsToNat ds : ℤ)
            | r4 =>
              let ds := r4.takeWhile isDigit
              if ds = [] then 0 else (digitsToNat ds : ℤ)
          else 0
        | [] => 0
      -- The value is ±(ip.fp)·10^ex.  It is assembled from integer
      -- arithmetic and normalised by `mkRat` so that every step reduces
      -- inside the kernel (the `ℚ` field operations do not).
      let num : ℤ := digitsToNat ip * 10 ^ fp.length + digitsToNat fp
      let sNum : ℤ := if neg then -num else num
      let q : ℚ :=
        if 0 ≤ ex then mkRat (sNum * 10 ^ ex.toNat) (10 ^ fp.length)
        else mkRat sNum (10 ^ fp.length * 10 ^ (-ex).toNat)
      some (.fin q)

/-- Model of `parseRussianNumber` of src/lib/extraction.ts: empty or `-`
input gives null; otherwise trim, delete every `\s` character (thousands
separators), turn the first comma into a dot, and `parseFloat`. -/
def parseRussianNumber (text : Str) : Option JsNum :=
  if text = [] ∨ jsTrim text = [] ∨ jsTrim text = ['-'] then none
  else
    let cleaned := replaceFirstComma ((jsTrim text).filter (fun c => !isJsWs c))
    parseFloatQ cleaned
where
  /-- Model of the non-global `.replace(',', '.')`. -/
  replaceFirstComma : Str → Str
    | [] => []
    | c :: cs => if c = ',' then '.' :: cs else c :: replaceFirstComma cs

/- ─────────────────────  src/lib/tableClassifier.ts  ───────────────────── -/

/-- The `TableCategory` union of src/types/extraction.ts. -/
inductive TableCategory where
  | material_qty | spec_elements | element_spec | floor_spec | roof_spec
  | room_schedule | change_log | unknown
deriving DecidableEq, Repr

/-- The `ParsedTable` shape of src/types/parser.ts. -/
structure ParsedTable where
  headers : List Str
  rows : List (List Str)
  sectionContext : Option Str
deriving DecidableEq, Repr

/-- Block variant tag of src/types/parser.ts. -/
inductive BlockType where
  | TEXT | IMAGE
deriving DecidableEq, Repr

/-- The `ParsedBlock` shape of src/types/parser.ts. -/
structure ParsedBlock where
  uid : Str
  type : BlockType
  content : Str
  hasTable : Bool
  hasError : Bool
  errorText : Option Str
  sectionTitle : Option Str
  tables : List ParsedTable
deriving DecidableEq, Repr

/-- The `ParsedPage` shape of src/types/parser.ts. -/
structure ParsedPage where
  pageNo : Nat
  sheetLabel : Option Str
  sheetName : Option Str
  blocks : List ParsedBlock
deriving DecidableEq, Repr

/-- The `ParsedDocument` shape of src/types/parser.ts. -/
structure ParsedDocument where
  title : Str
  generated : Option Str
  stampText : Option Str
  docCode : Option Str
  pages : List ParsedPage
  totalBlocks : Nat
  errorBlocks : Nat
deriving DecidableEq, Repr

/-- Header cell normalisation used by the classifier: `.toLowerCase().trim()`. -/
def normHeader (s : Str) : Str := jsTrim (s.map lowerChar)

/-- The classifier's `h.join(' ')` over normalised headers. -/
def classifierJoined (headers : List Str) : Str := joinSp (headers.map normHeader)
where
  /-- Model of `Array.prototype.join(' ')`. -/
  joinSp : List Str → Str
    | [] => []
    | [l] => l
    | l :: ls => l ++ ' ' :: joinSp ls

/-- Model of `classifyTable` of src/lib/tableClassifier.ts: case-insensitive
substring matching over the header cells, first rule wins. -/
def classifyTable (table : ParsedTable) : TableCategory :=
  let h := table.headers.map normHeader
  let joined := classifierJoined table.headers
  if h.any (containsSeq (str "изм")) &&
     h.any (fun x => containsSeq (str "подп") x || containsSeq (str "дата") x) then
    .change_log
  else if h.any (fun x => containsSeq (str "№ пом") x || containsSeq (str "номер пом") x) &&
          h.any (containsSeq (str "площадь")) then
    .room_schedule
  else if h.any (containsSeq (str "наименование")) &&
          h.any (fun x => containsSeq (str "количество") x || containsSeq (str "кол-во") x ||
                          containsSeq (str "кол") x) &&
          h.any (fun x => containsSeq (str "ед") x || containsSeq (str "изм") x) then
    .material_qty
  else if h.any (containsSeq (str "наименование")) && h.any (containsSeq (str "количество")) then
    .material_qty
  else if h.any (containsSeq (str "поз")) &&
          h.any (fun x => containsSeq (str "обозначение") x || containsSeq (str "наименование") x) &&
          h.any (containsSeq (str "кол")) then
    .spec_elements
  else if h.any (containsSeq (str "марка")) &&
          h.any (fun x => containsSeq (str "кол") x || containsSeq (str "шт") x) then
    .element_spec
  else if containsSeq (str "тип пола") joined ||
          (h.any (containsSeq (str "пол")) && h.any (containsSeq (str "данные элементов"))) then
    .floor_spec
  else if containsSeq (str "тип покрытия") joined ||
          (containsSeq (str "покрыт") joined && h.any (containsSeq (str "данные элементов"))) then
    .roof_spec
  else if h.any (containsSeq (str "поз")) &&
          h.any (fun x => containsSeq (str "наименование") x || containsSeq (str "назначение") x) then
    .spec_elements
  else
    .unknown

/-- Model of `isExtractableCategory` of src/lib/tableClassifier.ts. -/
def isExtractableCategory (category : TableCategory) : Bool :=
  category != .change_log && category != .room_schedule

/- ───────────────────────────  src/lib/parser.ts  ─────────────────────────── -/

/-- Match of `PAGE_RE = /^## СТРАНИЦА (\d+)$/` with the page number parsed
to a natural (`parseInt(_, 10)`). -/
def matchPage (l : Str) : Option Nat :=
  match dropPrefixSeq (str "## СТРАНИЦА ") l with
  | some rest => if rest ≠ [] ∧ rest.all isDigit then some (digitsToNat rest) else none
  | none => none

/-- Capture of a trailing `\s*(.+)$`: the greedy whitespace run backtracks
just enough to leave a non-empty capture, and `.` refuses line terminators. -/
def captureDotPlus (rest : Str) : Option Str :=
  if rest = [] then none
  else
    let k0 := min (rest.takeWhile isJsWs).length (rest.length - 1)
    let suf := rest.drop k0
    if suf.all (fun c => !isLineTerm c) then some suf else none

/-- Capture of a trailing `\s+(.+)$` (at least one whitespace consumed). -/
def captureWsPlusDotPlus (rest : Str) : Option Str :=
  match rest with
  | c :: rest' => if isJsWs c ∧ rest' ≠ [] then captureDotPlus (c :: rest') else none
  | [] => none

/-- Match of a line regex of the form `^tag\s*(.+)$` (used for
`SHEET_LABEL_RE`, `SHEET_NAME_RE`, `STAMP_RE` and `GENERATED_RE`). -/
def matchTagged (tag : Str) (l : Str) : Option Str :=
  (dropPrefixSeq tag l).bind captureDotPlus

/-- Match of `SECTION_RE = /^#{4,6}\s+(.+)$/`. -/
def matchSection (l : Str) : Option Str :=
  let hashes := l.takeWhile (· = '#')
  if 4 ≤ hashes.length ∧ hashes.length ≤ 6 then
    captureWsPlusDotPlus (l.drop hashes.length)
  else none

/-- Validation of the UID part of `BLOCK_RE`:
`[A-Z0-9]+-[A-Z0-9]+-[A-Z0-9]+` anchored to the end of the line. -/
def checkUid (rest : Str) : Option Str :=
  let u := rest.dropWhile isJsWs
  match splitOnChar '-' u with
  | [a, b, c] =>
    if a ≠ [] ∧ b ≠ [] ∧ c ≠ [] ∧ (a ++ b ++ c).all isUpperAlnum then some u else none
  | _ => none

/-- Match of `BLOCK_RE = /^### BLOCK \[(TEXT|IMAGE)\]:\s*([A-Z0-9]+-[A-Z0-9]+-[A-Z0-9]+)$/`. -/
def matchBlock (l : Str) : Option (BlockType × Str) :=
  match dropPrefixSeq (str "### BLOCK [TEXT]:") l with
  | some rest => (checkUid rest).map (fun u => (BlockType.TEXT, u))
  | none =>
    match dropPrefixSeq (str "### BLOCK [IMAGE]:") l with
    | some rest => (checkUid rest).map (fun u => (BlockType.IMAGE, u))
    | none => none

/-- Try to match `ERROR_RE = /\[Ошибка[^\]]*\]/` at the head of `s`,
returning the full matched text. -/
def tryErrAt (s : Str) : Option Str :=
  match dropPrefixSeq (str "[Ошибка") s with
  | none => none
  | some rest =>
    let run := rest.takeWhile (· ≠ ']')
    match rest.dropWhile (· ≠ ']') with
    | ']' :: _ => some (str "[Ошибка" ++ run ++ [']'])
    | _ => none

/-- Leftmost match of `ERROR_RE` anywhere in `s` (model of both
`ERROR_RE.test` via `isSome` and of `content.match(...)[0]`). -/
def findErrMatch : Str → Option Str
  | [] => tryErrAt []
  | c :: cs =>
    match tryErrAt (c :: cs) with
    | some m => some m
    | none => findErrMatch cs

/-- Match of `TABLE_ROW_RE = /^\|.+\|$/` against a whole string: a pipe,
at least one non-line-terminator character, a pipe. -/
def isTableRow (l : Str) : Bool :=
  l.length ≥ 3 && l.head? == some '|' && l.getLast? == some '|' &&
  ((l.drop 1).dropLast.all (fun c => !isLineTerm c))

/-- Match of `TABLE_SEPARATOR_RE = /^\|[\s\-:|]+\|$/`. -/
def isTableSep (l : Str) : Bool :=
  l.length ≥ 3 && l.head? == some '|' && l.getLast? == some '|' &&
  ((l.drop 1).dropLast.all (fun c => isJsWs c || c = '-' || c = ':' || c = '|'))

/-- Model of `splitTableRow`: strip one leading and one trailing pipe, split
on pipes, trim each cell. -/
def splitTableRow (line : Str) : List Str :=
  let a := match line with
    | '|' :: r => r
    | r => r
  let b := match a.getLast? with
    | some '|' => a.dropLast
    | _ => a
  (splitOnChar '|' b).map jsTrim

/-- Model of `parseMarkdownTable`: first row is the headers; the second row
is skipped when it is a separator; any further separator rows are skipped. -/
def parseMarkdownTable (tableLines : List Str) (sectionContext : Option Str) :
    Option ParsedTable :=
  match tableLines with
  | [] => none
  | l0 :: rest =>
    if rest = [] then none
    else
      let headers := splitTableRow l0
      let dataStart : Nat :=
        match rest with
        | l1 :: _ => if isTableSep l1 then 1 else 0
        | [] => 0
      let rows := ((rest.drop dataStart).filter (fun l => !isTableSep l)).map splitTableRow
      some { headers := headers, rows := rows, sectionContext := sectionContext }

/-- Close a run of consecutive table-row lines: runs shorter than two lines
are discarded, exactly as in `parseTables`. -/
def emitRun (sec : Option Str) (run : List Str) : List ParsedTable :=
  if run.length < 2 then [] else (parseMarkdownTable run sec).toList

/-- Scanning loop of `parseTables`: track the running section context, group
maximal runs of table-row lines, and emit each run.  The accumulator `run`
holds the table-row lines collected so far; a non-row line (or the end of
input) closes the run.  A section heading can never itself be a table row,
so this is the same traversal as the source's index-based loop. -/
def parseTablesGo (sec : Option Str) (run : List Str) : List Str → List ParsedTable
  | [] => emitRun sec run
  | l :: ls =>
    if isTableRow l then parseTablesGo sec (run ++ [l]) ls
    else
      emitRun sec run ++
        (match matchSection l with
         | some t => parseTablesGo (some (jsTrim t)) [] ls
         | none => parseTablesGo sec [] ls)

/-- Model of `parseTables` of src/lib/parser.ts. -/
def parseTables (lines : List Str) (defaultSection : Option Str) : List ParsedTable :=
  parseTablesGo defaultSection [] lines

/-- First level-4..6 heading line whose trimmed capture is non-empty
(the block-level `sectionTitle` scan of `buildBlock`). -/
def firstSectionTitle : List Str → Option Str
  | [] => none
  | l :: ls =>
    match matchSection l with
    | some t => if jsTrim t ≠ [] then some (jsTrim t) else firstSectionTitle ls
    | none => firstSectionTitle ls

/-- Model of `buildBlock` of src/lib/parser.ts. -/
def buildBlock (uid : Str) (type : BlockType) (contentLines : List Str) : ParsedBlock :=
  let content := jsTrim (joinLines contentLines)
  let errM := findErrMatch content
  let sectionTitle := firstSectionTitle contentLines
  let hasTable := contentLines.any isTableRow
  { uid := uid, type := type, content := content,
    hasTable := hasTable,
    hasError := errM.isSome,
    errorText := errM,
    sectionTitle := sectionTitle,
    tables := if hasTable then parseTables contentLines sectionTitle else [] }

/-- An open block being accumulated (the source also stores a `startIdx`,
which is never read afterwards). -/
structure CurBlock where
  type : BlockType
  uid : Str
  lines : List Str
deriving DecidableEq, Repr

/-- The mutable scanning state of `parseDocument`: the source pushes the
current page into `pages` at creation and keeps mutating it, so here a page
moves from `curPage` to `donePages` when it is finalized — the resulting
order is the same creation order. -/
structure ScanState where
  donePages : List ParsedPage
  curPage : Option ParsedPage
  curBlock : Option CurBlock
  inMeta : Bool
deriving DecidableEq, Repr

/-- The initial scanning state. -/
def initState : ScanState :=
  { donePages := [], curPage := none, curBlock := none, inMeta := false }

/-- Model of `finalizeBlock`: a no-op unless both a block and a page are
open (in which case the built block is appended to the open page). -/
def finalizeBlock (st : ScanState) : ScanState :=
  match st.curBlock, st.curPage with
  | some cb, some pg =>
    { st with
      curPage := some { pg with blocks := pg.blocks ++ [buildBlock cb.uid cb.type cb.lines] },
      curBlock := none }
  | _, _ => st

/-- Model of `finalizePage`: close the open block, then close the open page. -/
def finalizePage (st : ScanState) : ScanState :=
  let st1 := finalizeBlock st
  match st1.curPage with
  | some pg =>
    { st1 with donePages := st1.donePages ++ [pg], curPage := none, inMeta := false }
  | none => { st1 with inMeta := false }

/-- Update the open page in place. -/
def mapCurPage (st : ScanState) (f : ParsedPage → ParsedPage) : ScanState :=
  { st with curPage := st.curPage.map f }

/-- A `## СТРАНИЦА n` line: finalize, then open a fresh page in metadata mode. -/
def pageMarkerStep (st : ScanState) (n : Nat) : ScanState :=
  let st1 := finalizePage st
  { st1 with
    curPage := some { pageNo := n, sheetLabel := none, sheetName := none, blocks := [] },
    inMeta := true }

/-- The in-page-metadata handling: sheet label, sheet name, tolerated blank
lines.  Returns `none` when the line falls through to the block-marker and
content-accumulation checks, exactly like the source's `continue`-less path. -/
def metaStep (st : ScanState) (l : Str) : Option ScanState :=
  if st.curPage.isSome ∧ st.inMeta then
    match matchTagged (str "**Лист:**") l with
    | some v => some (mapCurPage st (fun pg => { pg with sheetLabel := some (jsTrim v) }))
    | none =>
      match matchTagged (str "**Наименование листа:**") l with
      | some v => some (mapCurPage st (fun pg => { pg with sheetName := some (jsTrim v) }))
      | none => if jsTrim l = [] then some st else none
  else none

/-- A `### BLOCK [...]` line: finalize the open block, leave metadata mode,
lazily create page 1 if no page exists, and open the new block. -/
def blockMarkerStep (st : ScanState) (tu : BlockType × Str) : ScanState :=
  let st1 := finalizeBlock st
  let st2 := { st1 with inMeta := false }
  let st3 :=
    if st2.curPage.isNone then
      { st2 with curPage := some { pageNo := 1, sheetLabel := none, sheetName := none, blocks := [] } }
    else st2
  { st3 with curBlock := some { type := tu.1, uid := tu.2, lines := [] } }

/-- Accumulate a content line into the open block (dropped if none is open). -/
def accumStep (st : ScanState) (l : Str) : ScanState :=
  match st.curBlock with
  | some cb => { st with curBlock := some { cb with lines := cb.lines ++ [l] } }
  | none => st

/-- One iteration of the main line loop of `parseDocument`. -/
def stepLine (st : ScanState) (l : Str) : ScanState :=
  match matchPage l with
  | some n => pageMarkerStep st n
  | none =>
    match metaStep st l with
    | some st' => st'
    | none =>
      match matchBlock l with
      | some tu => blockMarkerStep st tu
      | none => accumStep st l

/-- The whole line scan of `parseDocument`, including the final
`finalizePage()` after the loop. -/
def scanDoc (lines : List Str) : ScanState := finalizePage (lines.foldl stepLine initState)

/-- Document-code scan at one position: `\d+\/\d+-[А-Яа-яA-Za-z]+-[А-Яа-яA-Za-z0-9]+`
(each character class excludes the delimiter that follows it, so greedy runs
are forced). -/
def tryDocCodeAt (s : Str) : Option Str :=
  let d1 := s.takeWhile isDigit
  match s.drop d1.length with
  | '/' :: r1 =>
    let d2 := r1.takeWhile isDigit
    match r1.drop d2.length with
    | '-' :: r2 =>
      let w1 := r2.takeWhile isRuLetter
      match r2.drop w1.length with
      | '-' :: r3 =>
        let w2 := r3.takeWhile isRuAlnum
        if d1 ≠ [] ∧ d2 ≠ [] ∧ w1 ≠ [] ∧ w2 ≠ [] then
          some (d1 ++ '/' :: d2 ++ '-' :: w1 ++ '-' :: w2)
        else none
      | _ => none
    | _ => none
  | _ => none
where
  /-- The class `[А-Яа-яA-Za-z]` (the Cyrillic ranges are contiguous; ё/Ё
  are outside them, as in the source regex). -/
  isRuLetter (c : Char) : Bool :=
    ('A' ≤ c && c ≤ 'Z') || ('a' ≤ c && c ≤ 'z') || ('А' ≤ c && c ≤ 'я')
  /-- The class `[А-Яа-яA-Za-z0-9]`. -/
  isRuAlnum (c : Char) : Bool := isRuLetter c || isDigit c

/-- Leftmost document-code match in the title. -/
def findDocCode : Str → Option Str
  | [] => none
  | c :: cs =>
    match tryDocCodeAt (c :: cs) with
    | some m => some m
    | none => findDocCode cs

/-- The header-metadata scan of `parseDocument`: lines 1 .. min(length,10)-1,
each matching line overwriting the previous value (so the last match in the
window wins). -/
def headerMeta (lines : List Str) : Option Str × Option Str :=
  ((lines.drop 1).take 9).foldl
    (fun (acc : Option Str × Option Str) l =>
      let g := match matchTagged (str "Сгенерировано:") l with
        | some v => some (jsTrim v)
        | none => acc.1
      let st := match matchTagged (str "**Штамп:**") l with
        | some v => some (jsTrim v)
        | none => acc.2
      (g, st))
    (none, none)

/-- The fallback single block synthesized when no page was produced. -/
def fallbackBlock (mdText : Str) : ParsedBlock :=
  { uid := str "FALLBACK-0000-000", type := .TEXT, content := mdText,
    hasTable := isTableRow mdText,
    hasError := (findErrMatch mdText).isSome,
    errorText := none, sectionTitle := none, tables := [] }

/-- Model of `parseDocument` of src/lib/parser.ts. -/
def parseDocument (mdText : Str) : ParsedDocument :=
  let lines := splitOnChar '\n' mdText
  let title : Str :=
    match lines with
    | l0 :: _ => if startsWithSeq (str "# ") l0 then l0.drop 2 else []
    | [] => []
  let docCode :=
    match lines with
    | l0 :: _ => if startsWithSeq (str "# ") l0 then findDocCode (l0.drop 2) else none
    | [] => none
  let (generated, stampText) := headerMeta lines
  let stEnd := scanDoc lines
  let pages := if stEnd.donePages = [] then [
    { pageNo := 1, sheetLabel := none, sheetName := none, blocks := [fallbackBlock mdText] }
  ] else stEnd.donePages
  { title := title, generated := generated, stampText := stampText, docCode := docCode,
    pages := pages,
    totalBlocks := (pages.map (fun p => p.blocks.length)).sum,
    errorBlocks := (pages.map (fun p => (p.blocks.filter (·.hasError)).length)).sum }

/- ─────────────────────────  src/lib/extraction.ts  ───────────────────────── -/

/-- The `MaterialFactItem` shape of src/types/extraction.ts. -/
structure MaterialFactItem where
  raw_name : Str
  canonical_name : Option Str
  canonical_key : Option Str
  quantity : Option JsNum
  unit : Option Str
  mark : Option Str
  gost : Option Str
  description : Option Str
  note : Option Str
  source_snippet : Option Str
  confidence : ℚ
deriving DecidableEq, Repr

/-- Model of `findColumnIndex`: for each keyword in order, find the first
normalised header containing it; `none` models the source's `-1`. -/
def findColumnIndex (headers : List Str) : List Str → Option Nat
  | [] => none
  | kw :: kws =>
    match (headers.map normHeader).findIdx? (fun col => containsSeq kw col) with
    | some i => some i
    | none => findColumnIndex headers kws

/-- The character class `[\d.\-]` of the GOST regex. -/
def gostClassChar (c : Char) : Bool := isDigit c || c = '.' || c = '-'

/-- Try to match `(?:ГОСТ|GOST)\s*(?:Р\s*)?[\d.\-]+(?:\s*[\-–]\s*\d+)?` (case-
insensitively) at the head of `s`, returning the matched text.  Each greedy
run is forced because the character that must follow it is outside the class
being repeated, and when the optional `Р` is present but no class character
follows, backtracking cannot help (the class run would start at `Р` and be
empty), so the position simply fails. -/
def gostAt (s : Str) : Option Str :=
  let p := s.take 4
  if p.length = 4 ∧ (p.map lowerChar = str "гост" ∨ p.map lowerChar = str "gost") then
    let r1 := s.drop 4
    let ws1 := r1.takeWhile isJsWs
    let r2 := r1.drop ws1.length
    let (optP, r3) : Str × Str :=
      match r2 with
      | c :: rest =>
        if lowerChar c = 'р' then (c :: rest.takeWhile isJsWs, rest.drop (rest.takeWhile isJsWs).length)
        else ([], r2)
      | [] => ([], r2)
    let run := r3.takeWhile gostClassChar
    if run = [] then none
    else
      let r4 := r3.drop run.length
      let ws3 := r4.takeWhile isJsWs
      let tl : Str :=
        match r4.drop ws3.length with
        | c :: r6 =>
          if c = '-' ∨ c = '–' then
            let ws4 := r6.takeWhile isJsWs
            let ds := (r6.drop ws4.length).takeWhile isDigit
            if ds = [] then [] else ws3 ++ c :: (ws4 ++ ds)
          else []
        | [] => []
      some (p ++ ws1 ++ optP ++ run ++ tl)
  else none

/-- Model of `extractGost`: leftmost match of the GOST pattern, else null. -/
def extractGost : Str → Option Str
  | [] => none
  | c :: cs =>
    match gostAt (c :: cs) with
    | some m => some m
    | none => extractGost cs

/-- Model of `buildSnippet`: `"<name> | <qty> <unit>"` with the quantity
segment omitted when null and the unit segment omitted when falsy. -/
def buildSnippet (name : Str) (qty : Option JsNum) (unit : Option Str) : Str :=
  let s1 := name ++ (match qty with
    | some q => str " | " ++ jsNumToStr q
    | none => [])
  s1 ++ (match unit with
    | some u => if u = [] then [] else ' ' :: u
    | none => [])

/-- The `row[i]?.trim() || null` idiom: out-of-range and empty-after-trim
both become null. -/
def cellTrimOrNull (row : List Str) (i : Nat) : Option Str :=
  match (row[i]?).map jsTrim with
  | some v => if v = [] then none else some v
  | none => none

/-- The `idx !== -1 ? row[idx]?.trim() || null : null` idiom. -/
def idxCell (i : Option Nat) (row : List Str) : Option Str :=
  match i with
  | some j => cellTrimOrNull row j
  | none => none

/-- The `idx !== -1 ? parseRussianNumber(row[idx]) : null` idiom. -/
def idxQty (i : Option Nat) (row : List Str) : Option JsNum :=
  match i with
  | some j => parseRussianNumber ((row[j]?).getD [])
  | none => none

/-- Per-row body of the `extractMaterialQty` loop. -/
def mqRowItem (nameIdx : Nat) (qtyIdx unitIdx : Option Nat) (row : List Str) :
    Option MaterialFactItem :=
  match (row[nameIdx]?).map jsTrim with
  | none => none
  | some rawName =>
    if rawName = [] then none
    else
      let quantity := idxQty qtyIdx row
      let unit := idxCell unitIdx row
      -- Skip section-header rows like "K6", "K6.1".
      if quantity = none ∧ unit = none ∧ rawName.length < 10 ∧
         rawName.all isSkipNameChar then none
      -- Skip very short/truncated names (OCR artifacts).
      else if rawName.length < 3 then none
      else some {
        raw_name := rawName,
        canonical_name := some rawName,
        canonical_key := some (generateCanonicalKey rawName),
        quantity := quantity,
        unit := unit,
        mark := none,
        gost := extractGost rawName,
        description := none,
        note := none,
        source_snippet := some (buildSnippet rawName quantity unit),
        -- The source literal 0.95, written via `mkRat` so it reduces in the
        -- kernel; `mkRat 95 100 = 0.95` is proved where the claims need it.
        confidence := mkRat 95 100 }
where
  /-- The class `[A-Za-zА-Яа-я0-9.]` (the two Cyrillic ranges are the
  contiguous block U+0410..U+044F). -/
  isSkipNameChar (c : Char) : Bool :=
    ('A' ≤ c && c ≤ 'Z') || ('a' ≤ c && c ≤ 'z') || ('А' ≤ c && c ≤ 'я') ||
    isDigit c || c = '.'

/-- Model of `extractMaterialQty` of src/lib/extraction.ts. -/
def extractMaterialQty (table : ParsedTable) : List MaterialFactItem :=
  let nameIdx := findColumnIndex table.headers [str "наименование"]
  let qtyIdx := findColumnIndex table.headers [str "количество", str "кол-во", str "кол"]
  let unitIdx := findColumnIndex table.headers [str "ед.изм", str "ед.", str "ед"]
  match nameIdx with
  | none => []
  | some ni => table.rows.filterMap (mqRowItem ni qtyIdx unitIdx)

/-- Per-row body of the `extractElementSpec` loop. -/
def esRowItem (markIdx descIdx qtyIdx noteIdx : Option Nat) (row : List Str) :
    Option MaterialFactItem :=
  let mark := idxCell markIdx row
  let desc : Option Str := match descIdx with
    | some i => (row[i]?).map jsTrim
    | none => none
  let rawName : Str := match desc with
    | some d => if d ≠ [] then d else mark.getD []
    | none => mark.getD []
  if rawName = [] ∨ rawName.length < 3 then none
  else
    let quantity := idxQty qtyIdx row
    let note := idxCell noteIdx row
    some {
      raw_name := rawName,
      canonical_name := some rawName,
      canonical_key := some (generateCanonicalKey rawName),
      quantity := quantity,
      unit := some (str "шт"),
      mark := mark,
      gost := extractGost (rawName ++ ' ' :: note.getD []),
      description := if note = some rawName then none else note,
      note := none,
      source_snippet := some (buildSnippet rawName quantity (some (str "шт"))),
      -- The source literal 0.9 (kernel-reducible form).
      confidence := mkRat 9 10 }

/-- Model of `extractElementSpec` of src/lib/extraction.ts. -/
def extractElementSpec (table : ParsedTable) : List MaterialFactItem :=
  let markIdx := findColumnIndex table.headers [str "марка"]
  let descIdx := findColumnIndex table.headers [str "описание", str "наименование"]
  let qtyIdx := findColumnIndex table.headers [str "кол-во", str "кол", str "шт"]
  let noteIdx := findColumnIndex table.headers [str "примечание"]
  if descIdx = none ∧ markIdx = none then []
  else table.rows.filterMap (esRowItem markIdx descIdx qtyIdx noteIdx)

/-- Per-row body of the `extractSpecElements` loop. -/
def seRowItem (primaryNameIdx : Nat) (posIdx designationIdx qtyIdx noteIdx : Option Nat)
    (row : List Str) : Option MaterialFactItem :=
  match (row[primaryNameIdx]?).map jsTrim with
  | none => none
  | some rawName =>
    if rawName = [] ∨ rawName.length < 3 then none
    else
      let mark := idxCell posIdx row
      let quantity := idxQty qtyIdx row
      let note := idxCell noteIdx row
      let designation := match designationIdx with
        | some di => if di ≠ primaryNameIdx then cellTrimOrNull row di else none
        | none => none
      some {
        raw_name := rawName,
        canonical_name := some rawName,
        canonical_key := some (generateCanonicalKey rawName),
        quantity := quantity,
        unit := some (str "шт"),
        mark := mark,
        gost := extractGost (rawName ++ ' ' :: (designation.getD [] ++ ' ' :: note.getD [])),
        description := designation,
        note := note,
        source_snippet := some (buildSnippet rawName quantity (some (str "шт"))),
        -- The source literal 0.9 (kernel-reducible form).
        confidence := mkRat 9 10 }

/-- Model of `extractSpecElements` of src/lib/extraction.ts. -/
def extractSpecElements (table : ParsedTable) : List MaterialFactItem :=
  let posIdx := findColumnIndex table.headers [str "поз"]
  let designationIdx := findColumnIndex table.headers [str "обозначение"]
  let nameIdx := findColumnIndex table.headers [str "наименование", str "назначение"]
  let qtyIdx := findColumnIndex table.headers [str "кол-во", str "кол", str "количество"]
  let noteIdx := findColumnIndex table.headers [str "примечание"]
  let primaryNameIdx := if nameIdx ≠ none then nameIdx else designationIdx
  match primaryNameIdx with
  | none => []
  | some pi => table.rows.filterMap (seRowItem pi posIdx designationIdx qtyIdx noteIdx)

/-- Per-table dispatch of the `ruleBasedExtract` loop: non-extractable
categories are skipped, and of the extractable ones only the three
column-mapped categories produce items. -/
def ruleTableItems (table : ParsedTable) : List MaterialFactItem :=
  let category := classifyTable table
  if !isExtractableCategory category then []
  else if category = .material_qty then extractMaterialQty table
  else if category = .element_spec then extractElementSpec table
  else if category = .spec_elements then extractSpecElements table
  else []

/-- Model of `ruleBasedExtract` of src/lib/extraction.ts. -/
def ruleBasedExtract (block : ParsedBlock) : List MaterialFactItem :=
  block.tables.flatMap ruleTableItems

/-- Model of `dedupKey` of src/lib/extraction.ts:
`name|qty|unit` with name and unit lower-cased and trimmed. -/
def dedupKey (item : MaterialFactItem) : Str :=
  let name := jsTrim (item.raw_name.map lowerChar)
  let qty := match item.quantity with
    | some q => jsNumToStr q
    | none => []
  let unit := jsTrim ((item.unit.getD []).map lowerChar)
  name ++ '|' :: (qty ++ '|' :: unit)

/-- One pass of the `mergeResults` loop over a list: thread the `seen` key
set, keeping each item whose key is new. -/
def dedupPass (seen : List Str) : List MaterialFactItem → List Str × List MaterialFactItem
  | [] => (seen, [])
  | it :: its =>
    let k := dedupKey it
    if k ∈ seen then dedupPass seen its
    else
      let r := dedupPass (k :: seen) its
      (r.1, it :: r.2)

/-- Model of `mergeResults` of src/lib/extraction.ts: rule-based items first,
then the LLM items whose key was not already seen. -/
def mergeResults (ruleBased llmItems : List MaterialFactItem) : List MaterialFactItem :=
  let p1 := dedupPass [] ruleBased
  let p2 := dedupPass p1.1 llmItems
  p1.2 ++ p2.2

/- ────────────────────────  src/hooks/useExtraction.ts  ──────────────────────── -/

/-- The `hasComplexTables` test of `runExtraction`: some table classifies to
an extractable category other than the three column-mapped ones. -/
def hasComplexTables (b : ParsedBlock) : Bool :=
  b.tables.any (fun t =>
    let cat := classifyTable t
    isExtractableCategory cat && cat != .material_qty && cat != .element_spec &&
      cat != .spec_elements)

/-- The `hasUnknownTables` test of `runExtraction`. -/
def hasUnknownTables (b : ParsedBlock) : Bool :=
  b.tables.any (fun t => classifyTable t == .unknown)

/-- One attempt of the quantity-unit regex
`/\d+[,.]?\d*\s*(шт|м2|м3|м\.п\.|кг|т|л|компл)/i` at the head of `s`.
Every greedy run is forced: the unit alternatives start with a letter, so
shorter digit or whitespace runs cannot create a match that the maximal
runs miss; the only genuine choice is whether the optional separator is
taken. -/
def qtyPatAt (s : Str) : Bool :=
  let d1 := s.takeWhile isDigit
  if d1 = [] then false
  else
    let r1 := s.drop d1.length
    unitAfterDigits r1 ||
      (match r1 with
       | c :: r2 => (c = ',' || c = '.') && unitAfterDigits r2
       | [] => false)
where
  /-- Continue with `\d*\s*(alt)`. -/
  unitAfterDigits (r : Str) : Bool :=
    unitAlt ((r.dropWhile isDigit).dropWhile isJsWs)
  /-- Case-insensitive test of the unit alternation at the head. -/
  unitAlt (r : Str) : Bool :=
    [str "шт", str "м2", str "м3", str "м.п.", str "кг", str "т", str "л", str "компл"].any
      (fun u => startsWithSeq u (r.map lowerChar))

/-- The `hasQuantityPattern` test of `runExtraction` (regex `.test`, so a
match anywhere in the content counts). -/
def hasQuantityPattern : Str → Bool
  | [] => qtyPatAt []
  | c :: cs => qtyPatAt (c :: cs) || hasQuantityPattern cs

/-- An entry of the `blocksNeedingLlm` list (`BlockForExtraction` of
src/lib/extraction.ts).  The database id of a block is external persistence;
it is modelled as the block's uid (every parsed block is assumed present in
the store, which is what the orchestration's lookup-and-skip expresses). -/
structure LlmRequestEntry where
  block : ParsedBlock
  pageNo : Nat
  blockDbId : Str
  sectionContext : Option Str
deriving DecidableEq, Repr

/-- Contribution of one block to the `ruleBasedResults` map of
`runExtraction`: error and non-TEXT blocks are skipped outright; a block
with tables contributes its rule-based items when there are any. -/
def blockRuleContribution (b : ParsedBlock) : List (Str × List MaterialFactItem) :=
  if b.hasError || b.type != .TEXT then []
  else if b.hasTable then
    let ruleItems := ruleBasedExtract b
    if ruleItems.isEmpty then [] else [(b.uid, ruleItems)]
  else []

/-- Contribution of one block to the `blocksNeedingLlm` list of
`runExtraction`: error and non-TEXT blocks are skipped outright; a block
with tables is routed to the LLM when it has complex or unknown tables or
rule extraction produced nothing; a block without tables is routed only
when its content matches the quantity-unit pattern. -/
def blockLlmContribution (pageNo : Nat) (b : ParsedBlock) : List LlmRequestEntry :=
  if b.hasError || b.type != .TEXT then []
  else if b.hasTable then
    let ruleItems := ruleBasedExtract b
    if hasComplexTables b || hasUnknownTables b || ruleItems.isEmpty then
      [{ block := b, pageNo := pageNo, blockDbId := b.uid, sectionContext := b.sectionTitle }]
    else []
  else if hasQuantityPattern b.content then
    [{ block := b, pageNo := pageNo, blockDbId := b.uid, sectionContext := b.sectionTitle }]
  else []

/-- The `ruleBasedResults` map built by the selection loop of `runExtraction`
(in iteration order). -/
def ruleBasedResults (d : ParsedDocument) : List (Str × List MaterialFactItem) :=
  d.pages.flatMap (fun p => p.blocks.flatMap blockRuleContribution)

/-- The `blocksNeedingLlm` list built by the selection loop of `runExtraction`. -/
def blocksNeedingLlm (d : ParsedDocument) : List LlmRequestEntry :=
  d.pages.flatMap (fun p => p.blocks.flatMap (blockLlmContribution p.pageNo))

/- ─────────────────  Definitions used by the claim statements  ───────────────── -/

/-- The end-to-end scenario document: one page, one TEXT block holding a
two-row `material_qty` table. -/
def c1Input : Str :=
  str "## СТРАНИЦА 1\n### BLOCK [TEXT]: AAA-BBB-CCC\n| Наименование | Количество | Ед.изм. |\n| Кирпич керамический | 1 692,9 | шт |"

/-- No line of the input is a page or block structural marker. -/
def noStructuralMarkers (s : Str) : Bool :=
  (splitOnChar '\n' s).all (fun l => (matchPage l).isNone && (matchBlock l).isNone)

/-- A raw pipe-delimited table-row pattern occurs in a block's content,
reading the content as lines. -/
def rowPatternInContent (b : ParsedBlock) : Bool :=
  (splitOnChar '\n' b.content).any isTableRow

/-- The string contains a bracketed error-marker substring matching
`\[Ошибка[^\]]*\]`. -/
def ErrMarkerIn (s : Str) : Prop :=
  ∃ u v w, s = u ++ (str "[Ошибка" ++ (v ++ ']' :: w)) ∧ ∀ c ∈ v, c ≠ ']'

/-- The per-block invariant of claim C8 in its provable form: an error flag
is witnessed by a marker in the content, extracted tables imply the flag,
and the flag implies a table-row line in the content. -/
def BlockPred (b : ParsedBlock) : Prop :=
  (b.hasError = true → ErrMarkerIn b.content) ∧
  (b.tables ≠ [] → b.hasTable = true) ∧
  (b.hasTable = true → rowPatternInContent b = true)

/-- Scan-state invariant: every finished block satisfies `BlockPred`. -/
def StInv (st : ScanState) : Prop :=
  (∀ p ∈ st.donePages, ∀ b ∈ p.blocks, BlockPred b) ∧
  (∀ pg, st.curPage = some pg → ∀ b ∈ pg.blocks, BlockPred b)

/-- A character the slug alphabet admits: `[a-z0-9_]`. -/
def isSlugChar (c : Char) : Bool := isLowAlnum c || c = '_'

/-- Adjacent characters are not both underscores. -/
def underscoreApart (a b : Char) : Prop := a ≠ '_' ∨ b ≠ '_'

/-- No two adjacent characters of the string are both underscores.
(`List.Chain'` behind a definition head, so that elaboration does not try to
reduce the list argument.) -/
def noDoubleUnderscore (s : Str) : Prop := List.Chain' underscoreApart s

/-- The shape of every canonical key: slug characters only, no underscore at
either end, no two adjacent underscores. -/
def SlugInvP (s : Str) : Prop :=
  (∀ c ∈ s, isSlugChar c = true) ∧ s.head? ≠ some '_' ∧ s.getLast? ≠ some '_' ∧
    noDoubleUnderscore s

/-- The unit value `extractMaterialQty` reads for a given row: the trimmed
cell of the table's own unit column, null when the column is absent. -/
def mqUnitOf (table : ParsedTable) (row : List Str) : Option Str :=
  idxCell (findColumnIndex table.headers [str "ед.изм", str "ед.", str "ед"]) row

/-- Every keyword the classifier's rules test for (the compound joined-text
keywords listed together with their single-header constituents). -/
def recognizedKeywords : List Str :=
  [str "изм", str "подп", str "дата", str "№ пом", str "номер пом", str "площадь",
   str "наименование", str "количество", str "кол-во", str "кол", str "ед",
   str "поз", str "обозначение", str "марка", str "шт", str "тип пола", str "пол",
   str "данные элементов", str "тип покрытия", str "покрыт", str "назначение"]

/-- None of the recognized keywords occurs in the joined normalised header
text (hence in no single header either, since each header embeds in it). -/
def noRecognizedKeyword (headers : List Str) : Prop :=
  ∀ kw ∈ recognizedKeywords, containsSeq kw (classifierJoined headers) = false

/-- A parsed table with the given headers and no rows (classification looks
only at the headers). -/
def headerOnlyTable (headers : List Str) : ParsedTable :=
  { headers := headers, rows := [], sectionContext := none }

/-- A parsed table with the given headers and rows. -/
def headerOnlyTableRows (headers : List Str) (rows : List (List Str)) : ParsedTable :=
  { headers := headers, rows := rows, sectionContext := none }

/-- Append a character to the last group of a split (helper for reasoning
about `splitOnChar` over reversed strings). -/
def appendLast (c : Char) : List Str → List Str
  | [] => [[c]]
  | [g] => [g ++ [c]]
  | g :: gs => g :: appendLast c gs

/-- Counterexample input for C8: the block's only content line carries
leading whitespace, so the raw line is not a table row, but the trimmed
content is. -/
def c8cexInput : Str := str "### BLOCK [TEXT]: AAA-BBB-CCC\n  |a|b|"

/-- A default page value for list projections in concrete statements. -/
def emptyPage : ParsedPage :=
  { pageNo := 0, sheetLabel := none, sheetName := none, blocks := [] }

/-- Concrete rule-based item of the C4 merge-dedup scenario:
`{raw_name: "Кирпич", quantity: 100, unit: "шт"}`. -/
def ruleKirpich : MaterialFactItem :=
  { raw_name := str "Кирпич", canonical_name := some (str "Кирпич"),
    canonical_key := some (str "kirpich"),
    quantity := some (.fin (mkRat 100 1)), unit := some (str "шт"),
    mark := none, gost := none, description := none, note := none,
    source_snippet := some (str "Кирпич | 100 шт"), confidence := mkRat 95 100 }

/-- The matching LLM item: identical name, quantity and unit, but a
different canonical name. -/
def llmKirpich : MaterialFactItem :=
  { ruleKirpich with
    canonical_name := some (str "Кирпич керамический"),
    canonical_key := some (str "kirpich_keramicheskiy"),
    source_snippet := some (str "Кирпич 100 шт"), confidence := mkRat 8 10 }

/- ─────────────────────  Character-level supporting lemmas  ───────────────────── -/

theorem charEq_iff_toNat {a b : Char} : a = b ↔ a.toNat = b.toNat :=
  ⟨fun h => h ▸ rfl, fun h => Char.eq_of_val_eq (UInt32.toNat.inj h)⟩

theorem isJsWs_iff {c : Char} :
    isJsWs c = true ↔
      (c.toNat = 32 ∨ c.toNat = 9 ∨ c.toNat = 10 ∨ c.toNat = 13 ∨
       c.toNat = 0x0b ∨ c.toNat = 0x0c ∨ c.toNat = 0xa0 ∨ c.toNat = 0x1680 ∨
       (0x2000 ≤ c.toNat ∧ c.toNat ≤ 0x200a) ∨
       c.toNat = 0x2028 ∨ c.toNat = 0x2029 ∨ c.toNat = 0x202f ∨
       c.toNat = 0x205f ∨ c.toNat = 0x3000 ∨ c.toNat = 0xfeff) := by
  simp [isJsWs, Bool.or_eq_true, Bool.and_eq_true, decide_eq_true_eq, or_assoc, and_assoc]

theorem isSlugChar_toNat {c : Char} (h : isSlugChar c = true) :
    (97 ≤ c.toNat ∧ c.toNat ≤ 122) ∨ (48 ≤ c.toNat ∧ c.toNat ≤ 57) ∨ c.toNat = 95 := by
  simp only [isSlugChar, isLowAlnum, Bool.or_eq_true, Bool.and_eq_true,
    decide_eq_true_eq] at h
  rcases h with (⟨h1, h2⟩ | ⟨h1, h2⟩) | h3
  · exact Or.inl ⟨h1, h2⟩
  · exact Or.inr (Or.inl ⟨h1, h2⟩)
  · exact Or.inr (Or.inr (h3 ▸ rfl))

theorem lowerChar_of_slug {c : Char} (h : isSlugChar c = true) : lowerChar c = c := by
  have hn := isSlugChar_toNat h
  have hA : ¬('A' ≤ c ∧ c ≤ 'Z') := by
    rintro ⟨h1, h2⟩
    have h1' : 65 ≤ c.toNat := h1
    have h2' : c.toNat ≤ 90 := h2
    omega
  have hB : ¬('А' ≤ c ∧ c ≤ 'Я') := by
    rintro ⟨h1, h2⟩
    have h1' : 1040 ≤ c.toNat := h1
    omega
  have hC : ¬(c = 'Ё') := by
    intro hc
    have : c.toNat = 1025 := hc ▸ rfl
    omega
  rw [lowerChar, if_neg hA, if_neg hB, if_neg hC]

theorem slug_not_ws {c : Char} (h : isSlugChar c = true) : isJsWs c = false := by
  have hn := isSlugChar_toNat h
  cases hw : isJsWs c
  · rfl
  · exfalso
    rcases isJsWs_iff.mp hw with h'|h'|h'|h'|h'|h'|h'|h'|h'|h'|h'|h'|h'|h'|h' <;> omega

theorem slug_ne_of_toNat {c : Char} (h : isSlugChar c = true) (d : Char)
    (hd : ¬((97 ≤ d.toNat ∧ d.toNat ≤ 122) ∨ (48 ≤ d.toNat ∧ d.toNat ≤ 57) ∨ d.toNat = 95)) :
    c ≠ d := by
  intro he
  exact hd (he ▸ isSlugChar_toNat h)

theorem isLowAlnum_ne_underscore {c : Char} (h : isLowAlnum c = true) : c ≠ '_' := by
  simp only [isLowAlnum, Bool.or_eq_true, Bool.and_eq_true, decide_eq_true_eq] at h
  intro he
  have : c.toNat = 95 := he ▸ rfl
  rcases h with ⟨h1, h2⟩ | ⟨h1, h2⟩
  · have h1' : 97 ≤ c.toNat := h1
    omega
  · have h2' : c.toNat ≤ 57 := h2
    omega

theorem slug_not_alnum_eq_underscore {c : Char} (h : isSlugChar c = true)
    (h2 : isLowAlnum c = false) : c = '_' := by
  simp only [isSlugChar, Bool.or_eq_true, decide_eq_true_eq, h2, Bool.false_eq_true,
    false_or] at h
  exact h

theorem ruToLat_of_slug {c : Char} (h : isSlugChar c = true) : ruToLat c = none := by
  have hn := isSlugChar_toNat h
  have hb : ∀ x ∈ RU_TO_LAT, 1072 ≤ x.1.toNat ∧ x.1.toNat ≤ 1105 := by decide
  unfold ruToLat
  rw [List.find?_eq_none.mpr]
  · rfl
  · intro x hx hp
    have := hb x hx
    have he : x.1 = c := by simpa using hp
    rw [he] at this
    omega

/- ─────────────────────  Slug-shape lemmas (claims C5, C10)  ───────────────────── -/

theorem map_id_of_mem {f : Char → Char} {s : Str} (h : ∀ c ∈ s, f c = c) :
    s.map f = s := by
  induction s with
  | nil => rfl
  | cons c cs ih =>
    simp only [List.map_cons, h c (by simp)]
    rw [ih (fun x hx => h x (by simp [hx]))]

theorem flatMap_id_of_mem {f : Char → Str} {s : Str} (h : ∀ c ∈ s, f c = [c]) :
    s.flatMap f = s := by
  induction s with
  | nil => rfl
  | cons c cs ih =>
    simp only [List.flatMap_cons, h c (by simp)]
    rw [ih (fun x hx => h x (by simp [hx]))]
    rfl

theorem transliterate_mem_of_slug {s : Str} (h : ∀ c ∈ s, isSlugChar c = true) :
    transliterate s = s := by
  unfold transliterate
  rw [map_id_of_mem (fun c hc => lowerChar_of_slug (h c hc))]
  exact flatMap_id_of_mem (fun c hc => by rw [ruToLat_of_slug (h c hc)]; rfl)

theorem collapseNonAlnum_mem {s : Str} : ∀ c ∈ collapseNonAlnum s, isSlugChar c = true := by
  induction s using collapseNonAlnum.induct with
  | case1 => intro c hc; simp [collapseNonAlnum] at hc
  | case2 c h => intro x hx; simp [collapseNonAlnum, h] at hx; simp [hx, isSlugChar, h]
  | case3 c h => intro x hx; simp [collapseNonAlnum, h] at hx; simp [hx, isSlugChar]
  | case4 c d cs h ih =>
    intro x hx
    simp only [collapseNonAlnum, h, if_true] at hx
    rcases List.mem_cons.mp hx with rfl | hx
    · simp [isSlugChar, h]
    · exact ih x hx
  | case5 c d cs h h2 ih =>
    intro x hx
    simp only [collapseNonAlnum, h, if_false, Bool.false_eq_true, h2, if_true] at hx
    rcases List.mem_cons.mp hx with rfl | hx
    · simp [isSlugChar]
    · exact ih x hx
  | case6 c d cs h h2 ih =>
    intro x hx
    simp only [collapseNonAlnum, h, h2, if_false, Bool.false_eq_true] at hx
    exact ih x hx

theorem collapseNonAlnum_head {s : Str} :
    (collapseNonAlnum s).head? = s.head?.map (fun c => if isLowAlnum c then c else '_') := by
  induction s using collapseNonAlnum.induct with
  | case1 => rfl
  | case2 c h => simp [collapseNonAlnum, h]
  | case3 c h => simp [collapseNonAlnum, h]
  | case4 c d cs h ih => simp [collapseNonAlnum, h]
  | case5 c d cs h h2 ih => simp [collapseNonAlnum, h, h2]
  | case6 c d cs h h2 ih => simp [collapseNonAlnum, h, h2, ih]

theorem collapseNonAlnum_chain {s : Str} :
    List.Chain' underscoreApart (collapseNonAlnum s) := by
  induction s using collapseNonAlnum.induct with
  | case1 => simp [collapseNonAlnum]
  | case2 c h => simp [collapseNonAlnum, h]
  | case3 c h => simp [collapseNonAlnum, h]
  | case4 c d cs h ih =>
    simp only [collapseNonAlnum, h, if_true]
    rw [List.chain'_cons']
    exact ⟨fun y _ => Or.inl (isLowAlnum_ne_underscore h), ih⟩
  | case5 c d cs h h2 ih =>
    simp only [collapseNonAlnum, h, if_false, Bool.false_eq_true, h2, if_true]
    rw [List.chain'_cons']
    refine ⟨fun y hy => ?_, ih⟩
    rw [collapseNonAlnum_head] at hy
    simp [h2] at hy
    exact Or.inr (hy ▸ isLowAlnum_ne_underscore h2)
  | case6 c d cs h h2 ih =>
    simpa only [collapseNonAlnum, h, h2, if_false, Bool.false_eq_true] using ih

theorem mem_dropWhile_sub {p : Char → Bool} {s : Str} {c : Char}
    (h : c ∈ s.dropWhile p) : c ∈ s := by
  have h2 : c ∈ s.takeWhile p ++ s.dropWhile p := List.mem_append_right _ h
  rwa [List.takeWhile_append_dropWhile] at h2

theorem chain'_dropWhile {R : Char → Char → Prop} {p : Char → Bool} {s : Str}
    (h : List.Chain' R s) : List.Chain' R (s.dropWhile p) := by
  have hs : s = s.takeWhile p ++ s.dropWhile p :=
    (List.takeWhile_append_dropWhile (p := p) (l := s)).symm
  rw [hs] at h
  exact (List.chain'_append.mp h).2.1

theorem underscoreApart_symm {a b : Char} (h : underscoreApart a b) :
    underscoreApart b a := Or.symm h

theorem chain'_reverse_apart {s : Str} (h : List.Chain' underscoreApart s) :
    List.Chain' underscoreApart s.reverse := by
  rw [List.chain'_reverse]
  exact (h.imp fun a b hab => underscoreApart_symm hab)

theorem head?_dropWhile_not {p : Char → Bool} {s : Str} {a : Char}
    (h : (s.dropWhile p).head? = some a) : p a = false := by
  induction s with
  | nil => simp at h
  | cons c cs ih =>
    rw [List.dropWhile_cons] at h
    by_cases hp : p c = true
    · rw [if_pos hp] at h
      exact ih h
    · rw [if_neg hp] at h
      simp only [List.head?_cons, Option.some.injEq] at h
      subst h
      exact Bool.eq_false_iff.mpr hp

theorem trimUnderscores_mem {s : Str} {c : Char} (h : c ∈ trimUnderscores s) : c ∈ s := by
  unfold trimUnderscores at h
  rw [List.mem_reverse] at h
  have h2 := mem_dropWhile_sub h
  rw [List.mem_reverse] at h2
  exact mem_dropWhile_sub h2

theorem trimUnderscores_chain {s : Str} (h : List.Chain' underscoreApart s) :
    List.Chain' underscoreApart (trimUnderscores s) :=
  chain'_reverse_apart (chain'_dropWhile (chain'_reverse_apart (chain'_dropWhile h)))

theorem trimUnderscores_head {s : Str} : (trimUnderscores s).head? ≠ some '_' := by
  unfold trimUnderscores
  intro h
  rw [List.head?_reverse] at h
  -- The last element of the doubly-trimmed middle is the head of the first trim.
  set u1 := s.dropWhile (· = '_') with hu1
  set v := u1.reverse.dropWhile (· = '_') with hv
  have hvne : v ≠ [] := by
    intro hnil
    rw [hnil] at h
    simp at h
  have : u1.reverse.getLast? = some '_' := by
    have hsplit : u1.reverse = u1.reverse.takeWhile (· = '_') ++ v :=
      (List.takeWhile_append_dropWhile (p := (· = '_')) (l := u1.reverse)).symm
    rw [hsplit, List.getLast?_append, h]
    rfl
  rw [List.getLast?_reverse] at this
  have := head?_dropWhile_not this
  simp at this

theorem trimUnderscores_getLast {s : Str} : (trimUnderscores s).getLast? ≠ some '_' := by
  unfold trimUnderscores
  intro h
  rw [List.getLast?_reverse] at h
  have := head?_dropWhile_not h
  simp at this

theorem collapseUnderscores_id {s : Str} (h : List.Chain' underscoreApart s) :
    collapseUnderscores s = s := by
  induction s using collapseUnderscores.induct with
  | case1 => rfl
  | case2 c => rfl
  | case3 c d cs hcd ih =>
    exfalso
    simp only [Bool.and_eq_true, decide_eq_true_eq] at hcd
    have := (List.chain'_cons.mp h).1
    rcases this with h1 | h1 <;> [exact h1 hcd.1; exact h1 hcd.2]
  | case4 c d cs hcd ih =>
    have := ih ((List.chain'_cons.mp h).2)
    simp only [Bool.and_eq_true, decide_eq_true_eq, not_and] at hcd
    rw [collapseUnderscores, if_neg (by simpa using hcd)]
    rw [this]

theorem slugify_inv (s : Str) : SlugInvP (slugify s) := by
  unfold slugify
  set t := trimUnderscores (collapseNonAlnum (transliterate s)) with ht
  have hchain : List.Chain' underscoreApart t :=
    trimUnderscores_chain collapseNonAlnum_chain
  rw [collapseUnderscores_id hchain]
  refine ⟨fun c hc => collapseNonAlnum_mem c (trimUnderscores_mem hc), ?_, ?_, hchain⟩
  · exact trimUnderscores_head
  · exact trimUnderscores_getLast

theorem generateCanonicalKey_inv (s : Str) : SlugInvP (generateCanonicalKey s) := by
  unfold generateCanonicalKey
  exact slugify_inv _

/- ─────────────────  Fixed-point lemmas for slug-shaped strings  ───────────────── -/

theorem collapseNonAlnum_id {s : Str} (hm : ∀ c ∈ s, isSlugChar c = true)
    (hch : List.Chain' underscoreApart s) (hl : s.getLast? ≠ some '_') :
    collapseNonAlnum s = s := by
  induction s using collapseNonAlnum.induct with
  | case1 => rfl
  | case2 c h => simp [collapseNonAlnum, h]
  | case3 c h =>
    exfalso
    exact hl (by
      simp [slug_not_alnum_eq_underscore (hm c (by simp)) (Bool.eq_false_iff.mpr h)])
  | case4 c d cs h ih =>
    rw [collapseNonAlnum, if_pos h]
    rw [ih (fun x hx => hm x (by simp [hx])) (List.chain'_cons.mp hch).2
      (by simpa using hl)]
  | case5 c d cs h h2 ih =>
    rw [collapseNonAlnum, if_neg (by simp [h]), if_pos h2]
    have hc : c = '_' :=
      slug_not_alnum_eq_underscore (hm c (by simp)) (Bool.eq_false_iff.mpr h)
    rw [hc]
    rw [ih (fun x hx => hm x (by simp [hx])) (List.chain'_cons.mp hch).2
      (by simpa using hl)]
  | case6 c d cs h h2 ih =>
    exfalso
    have hc : c = '_' :=
      slug_not_alnum_eq_underscore (hm c (by simp)) (Bool.eq_false_iff.mpr h)
    have hd : d = '_' :=
      slug_not_alnum_eq_underscore (hm d (by simp)) (Bool.eq_false_iff.mpr h2)
    have := (List.chain'_cons.mp hch).1
    rcases this with h1 | h1 <;> [exact h1 hc; exact h1 hd]

theorem dropWhile_id_of_head {p : Char → Bool} {s : Str}
    (h : ∀ a, s.head? = some a → p a = false) : s.dropWhile p = s := by
  cases s with
  | nil => rfl
  | cons c cs =>
    rw [List.dropWhile_cons, if_neg]
    simp [h c rfl]

theorem trimUnderscores_id {s : Str} (h1 : s.head? ≠ some '_')
    (h2 : s.getLast? ≠ some '_') : trimUnderscores s = s := by
  unfold trimUnderscores
  have e1 : s.dropWhile (· = '_') = s :=
    dropWhile_id_of_head (fun a ha => by
      simp only [decide_eq_false_iff_not]
      intro he
      exact h1 (he ▸ ha))
  rw [e1]
  have e2 : s.reverse.dropWhile (· = '_') = s.reverse :=
    dropWhile_id_of_head (fun a ha => by
      rw [List.head?_reverse] at ha
      simp only [decide_eq_false_iff_not]
      intro he
      exact h2 (he ▸ ha))
  rw [e2, List.reverse_reverse]

theorem slugify_id {s : Str} (h : SlugInvP s) : slugify s = s := by
  obtain ⟨hm, hh, hl, hch⟩ := h
  unfold slugify
  rw [transliterate_mem_of_slug hm, collapseNonAlnum_id hm hch hl,
    trimUnderscores_id hh hl, collapseUnderscores_id hch]

theorem replaceNoiseAux_id {h0 : Char} {t : Str} {s : Str}
    (hc : ∀ c ∈ s, isJsWs c = false ∧ lowerChar c ≠ h0) :
    ∀ n, replaceNoiseAux (h0 :: t) n s = s := by
  induction s with
  | nil => intro n; cases n <;> rfl
  | cons c cs ih =>
    intro n
    cases n with
    | zero => rfl
    | succ m =>
      have hcc := hc c (by simp)
      rw [replaceNoiseAux]
      rw [show tryNoise (h0 :: t) (c :: cs) = none from by
        unfold tryNoise
        rw [List.dropWhile_cons, if_neg (by simp [hcc.1])]
        rw [matchLitCI, if_neg hcc.2]]
      rw [ih (fun x hx => hc x (by simp [hx])) m]

theorem replaceNoise_id {h0 : Char} {t : Str} {s : Str}
    (hc : ∀ c ∈ s, isJsWs c = false ∧ lowerChar c ≠ h0) :
    replaceNoise (h0 :: t) s = s := replaceNoiseAux_id hc _

theorem slug_char_props {c : Char} (h : isSlugChar c = true) :
    isJsWs c = false ∧ lowerChar c ≠ '(' ∧ lowerChar c ≠ 'и' ∧ lowerChar c ≠ 'а' ∧
      c ≠ '"' ∧ c ≠ '«' ∧ c ≠ '»' := by
  have hn := isSlugChar_toNat h
  have hlc := lowerChar_of_slug h
  refine ⟨slug_not_ws h, ?_, ?_, ?_, ?_, ?_, ?_⟩ <;> (try rw [hlc]) <;>
    · intro he
      have := charEq_iff_toNat.mp he
      simp at this
      omega

theorem dropWhile_id_of_all {p : Char → Bool} {s : Str}
    (h : ∀ c ∈ s, p c = false) : s.dropWhile p = s :=
  dropWhile_id_of_head (fun a ha => h a (by
    cases s with
    | nil => simp at ha
    | cons c cs => simp only [List.head?_cons, Option.some.injEq] at ha; simp [ha]))

theorem jsTrim_id_of_no_ws {s : Str} (h : ∀ c ∈ s, isJsWs c = false) : jsTrim s = s := by
  unfold jsTrim
  rw [dropWhile_id_of_all h,
    dropWhile_id_of_all (fun c hc => h c (List.mem_reverse.mp hc)),
    List.reverse_reverse]

theorem generateCanonicalKey_id {s : Str} (h : SlugInvP s) :
    generateCanonicalKey s = s := by
  obtain ⟨hm, hh, hl, hch⟩ := h
  have props := fun c hc => slug_char_props (hm c hc)
  unfold generateCanonicalKey
  rw [show str "(или аналог)" = '(' :: str "или аналог)" from by decide,
    replaceNoise_id (fun c hc => ⟨(props c hc).1, (props c hc).2.1⟩)]
  rw [show str "или аналог" = 'и' :: str "ли аналог" from by decide,
    replaceNoise_id (fun c hc => ⟨(props c hc).1, (props c hc).2.2.1⟩)]
  rw [show str "аналог" = 'а' :: str "налог" from by decide,
    replaceNoise_id (fun c hc => ⟨(props c hc).1, (props c hc).2.2.2.1⟩)]
  rw [show removeQuotes s = s from List.filter_eq_self.mpr (fun c hc => by
    have p := props c hc
    simp [p.2.2.2.2.1, p.2.2.2.2.2.1, p.2.2.2.2.2.2])]
  rw [jsTrim_id_of_no_ws (fun c hc => (props c hc).1)]
  exact slugify_id ⟨hm, hh, hl, hch⟩

theorem generateCanonicalKey_chars (s : Str) :
    ∀ c ∈ generateCanonicalKey s, isSlugChar c = true := by
  have h := generateCanonicalKey_inv s
  unfold SlugInvP at h
  exact h.1

theorem generateCanonicalKey_head (s : Str) :
    (generateCanonicalKey s).head? ≠ some '_' := by
  have h := generateCanonicalKey_inv s
  unfold SlugInvP at h
  exact h.2.1

theorem generateCanonicalKey_getLast (s : Str) :
    (generateCanonicalKey s).getLast? ≠ some '_' := by
  have h := generateCanonicalKey_inv s
  unfold SlugInvP at h
  exact h.2.2.1

theorem generateCanonicalKey_chain (s : Str) :
    noDoubleUnderscore (generateCanonicalKey s) := by
  have h := generateCanonicalKey_inv s
  unfold SlugInvP at h
  exact h.2.2.2

theorem generateCanonicalKey_hard_sign : generateCanonicalKey (str "ъ") = [] := by
  unfold generateCanonicalKey
  rw [show str "(или аналог)" = '(' :: str "или аналог)" from by decide,
    replaceNoise_id (by decide)]
  rw [show str "или аналог" = 'и' :: str "ли аналог" from by decide,
    replaceNoise_id (by decide)]
  rw [show str "аналог" = 'а' :: str "налог" from by decide,
    replaceNoise_id (by decide)]
  rw [show removeQuotes (str "ъ") = str "ъ" from by decide]
  rw [show jsTrim (str "ъ") = str "ъ" from by decide]
  show slugify (str "ъ") = []
  unfold slugify
  rw [show transliterate (str "ъ") = [] from by decide]
  rfl

/- ─────────────────────────────  Claim theorems  ───────────────────────────── -/

/-- C5: `generateCanonicalKey` is idempotent — applying the generator
(noise-phrase stripping followed by transliteration and slugification) to
its own output returns that output unchanged. -/
theorem c5_canonical_key_idempotent (s : Str) :
    generateCanonicalKey (generateCanonicalKey s) = generateCanonicalKey s :=
  generateCanonicalKey_id (generateCanonicalKey_inv s)

/-- C10: every canonical key consists only of characters from `[a-z0-9_]`,
never begins or ends with an underscore, and never contains two consecutive
underscores; and the output may be empty (the input `ъ`, the Cyrillic hard
sign, transliterates to nothing and produces the empty key). -/
theorem c10_canonical_key_shape :
    (∀ s, ∀ c ∈ generateCanonicalKey s, isSlugChar c = true) ∧
    (∀ s, (generateCanonicalKey s).head? ≠ some '_') ∧
    (∀ s, (generateCanonicalKey s).getLast? ≠ some '_') ∧
    (∀ s, noDoubleUnderscore (generateCanonicalKey s)) ∧
    generateCanonicalKey (str "ъ") = [] :=
  ⟨generateCanonicalKey_chars, generateCanonicalKey_head, generateCanonicalKey_getLast,
   generateCanonicalKey_chain, generateCanonicalKey_hard_sign⟩

/-- Witness for C10: the key of `"ab"` is `ab`; its character `a` is a slug
character, obtained through the theorem at this concrete input. -/
theorem c10_witness :
    'a' ∈ generateCanonicalKey (str "ab") ∧ isSlugChar 'a' = true := by
  have hinv : SlugInvP (str "ab") := by
    refine ⟨by decide, by decide, by decide, ?_⟩
    exact List.chain'_cons.mpr ⟨Or.inl (by decide), List.chain'_singleton _⟩
  have h1 : generateCanonicalKey (str "ab") = str "ab" := generateCanonicalKey_id hinv
  exact ⟨by rw [h1]; decide, c10_canonical_key_shape.1 (str "ab") 'a' (by rw [h1]; decide)⟩

/- ──────────────────  Parser totality lemmas (claim C2)  ────────────────── -/

theorem parseDocument_pages (s : Str) :
    (parseDocument s).pages =
      (if (scanDoc (splitOnChar '\n' s)).donePages = []
       then [{ pageNo := 1, sheetLabel := none, sheetName := none,
               blocks := [fallbackBlock s] }]
       else (scanDoc (splitOnChar '\n' s)).donePages) := rfl

theorem stepLine_init {l : Str} (h1 : matchPage l = none) (h2 : matchBlock l = none) :
    stepLine initState l = initState := by
  simp [stepLine, h1, h2, metaStep, accumStep, initState]

theorem foldl_stepLine_init {lines : List Str}
    (h : ∀ l ∈ lines, matchPage l = none ∧ matchBlock l = none) :
    List.foldl stepLine initState lines = initState := by
  induction lines with
  | nil => rfl
  | cons l ls ih =>
    rw [List.foldl_cons, stepLine_init (h l (by simp)).1 (h l (by simp)).2]
    exact ih (fun x hx => h x (by simp [hx]))

theorem finalizePage_init : finalizePage initState = initState := rfl

theorem scanDoc_no_markers {lines : List Str}
    (h : ∀ l ∈ lines, matchPage l = none ∧ matchBlock l = none) :
    scanDoc lines = initState := by
  unfold scanDoc
  rw [foldl_stepLine_init h, finalizePage_init]

/-- C2 (amended): `parseDocument` is total; it always returns at least one
page; and when the input contains no page or block structural markers the
result is exactly the fallback single-page single-block document whose block
content equals the entire input.  (The unamended claim that every input
yields exactly one page with at least one block fails: one page marker alone
yields one page with zero blocks.) -/
theorem c2_parser_totality_amended (s : Str) :
    (parseDocument s).pages ≠ [] ∧
    (noStructuralMarkers s = true →
      (parseDocument s).pages =
        [{ pageNo := 1, sheetLabel := none, sheetName := none,
           blocks := [fallbackBlock s] }]) := by
  constructor
  · rw [parseDocument_pages]
    split
    · simp
    · assumption
  · intro hm
    have hl : ∀ l ∈ splitOnChar '\n' s, matchPage l = none ∧ matchBlock l = none := by
      intro l hlm
      have := List.all_eq_true.mp hm l hlm
      simp only [Bool.and_eq_true, Option.isNone_iff_eq_none] at this
      exact this
    rw [parseDocument_pages, scanDoc_no_markers hl]
    simp [initState]

/-- Counterexample for C2 as stated: the input consisting of a single page
marker parses to one page containing zero blocks, contradicting "exactly one
page containing at least one block". -/
theorem c2_counterexample :
    ((parseDocument (str "## СТРАНИЦА 1")).pages.map (fun p => p.blocks.length)) = [0] := by
  decide

/-- Witness for C2 (amended): at the marker-free input `abc` the fallback
document is produced. -/
theorem c2_witness :
    noStructuralMarkers (str "abc") = true ∧
    (parseDocument (str "abc")).pages =
      [{ pageNo := 1, sheetLabel := none, sheetName := none,
         blocks := [fallbackBlock (str "abc")] }] :=
  ⟨by decide, (c2_parser_totality_amended (str "abc")).2 (by decide)⟩

/- ─────────────────────  Numeric parsing (claim C3)  ───────────────────── -/

/-- C3 (amended): `parseRussianNumber` maps the empty string and `-` to
null, strips internal whitespace, replaces the first comma with a dot, and
parses with `parseFloat` longest-numeric-head semantics; it returns null
exactly when the input is empty or `-` after trimming, or the cleaned form
has no numeric head.  `"1 692,9"` gives 1692.9 and `"202,6"` gives 202.6.
(The unamended claim that every string whose cleaned form is not a numeral
yields null fails: `parseFloat` accepts a numeric head with trailing
garbage, e.g. `"12abc"` parses to 12.) -/
theorem c3_parse_russian_number_amended :
    parseRussianNumber (str "1 692,9") = some (.fin (1692.9 : ℚ)) ∧
    parseRussianNumber (str "202,6") = some (.fin (202.6 : ℚ)) ∧
    parseRussianNumber (str "") = none ∧
    parseRussianNumber (str "-") = none ∧
    (∀ t, parseRussianNumber t = none ↔
      (t = [] ∨ jsTrim t = [] ∨ jsTrim t = ['-'] ∨
        parseFloatQ (parseRussianNumber.replaceFirstComma
          ((jsTrim t).filter (fun c => !isJsWs c))) = none)) := by
  refine ⟨?_, ?_, by decide, by decide, ?_⟩
  · rw [show (1692.9 : ℚ) = mkRat 16929 10 from by rw [Rat.mkRat_eq_div]; norm_num]
    decide
  · rw [show (202.6 : ℚ) = mkRat 2026 10 from by rw [Rat.mkRat_eq_div]; norm_num]
    decide
  · intro t
    unfold parseRussianNumber
    split
    · rename_i h
      exact iff_of_true rfl (by tauto)
    · rename_i h
      push_neg at h
      constructor
      · intro he
        exact Or.inr (Or.inr (Or.inr he))
      · rintro (h1 | h2 | h3 | h4)
        · exact absurd h1 h.1
        · exact absurd h2 h.2.1
        · exact absurd h3 h.2.2
        · exact h4

/-- Counterexample for C3 as stated: the cleaned form `12abc` is not a
numeral, yet the parse yields 12 rather than null. -/
theorem c3_counterexample :
    parseRussianNumber (str "12abc") = some (.fin (12 : ℚ)) := by
  rw [show (12 : ℚ) = mkRat 12 1 from by rw [Rat.mkRat_eq_div]; norm_num]
  decide

/-- Witness for C3 (amended): the non-numeric input `abc` parses to null,
through the iff of the theorem. -/
theorem c3_witness : parseRussianNumber (str "abc") = none :=
  (c3_parse_russian_number_amended.2.2.2.2 (str "abc")).mpr (by decide)

/- ────────────────────  End-to-end scenario (claim C1)  ──────────────────── -/

/-- C1: parsing the one-page one-TEXT-block document whose block holds the
two-row `material_qty` table (`Наименование | Количество | Ед.изм.` over
`Кирпич керамический | 1 692,9 | шт`) yields exactly one rule-based item for
that block with quantity 1692.9, unit `шт`, confidence 0.95, and the block
is not placed in the list sent to the LLM gateway. -/
theorem c1_end_to_end :
    ((ruleBasedResults (parseDocument c1Input)).map
      (fun e => (e.1, e.2.map (fun it => (it.quantity, it.unit, it.confidence)))))
      = [(str "AAA-BBB-CCC",
          [(some (JsNum.fin (1692.9 : ℚ)), some (str "шт"), (0.95 : ℚ))])]
    ∧ blocksNeedingLlm (parseDocument c1Input) = [] := by
  rw [show (1692.9 : ℚ) = mkRat 16929 10 from by rw [Rat.mkRat_eq_div]; norm_num,
    show (0.95 : ℚ) = mkRat 95 100 from by rw [Rat.mkRat_eq_div]; norm_num]
  exact ⟨by decide, by decide⟩

/- ─────────────────  Excluded blocks in orchestration (claim C9)  ───────────────── -/

/-- C9: a parsed block whose error flag is set, or whose variant is IMAGE,
contributes nothing to rule-based extraction and nothing to the list of
blocks sent to the LLM gateway, regardless of its tables or content. -/
theorem c9_error_and_image_blocks_excluded :
    ∀ (pageNo : Nat) (b : ParsedBlock), b.hasError = true ∨ b.type = .IMAGE →
      blockRuleContribution b = [] ∧ blockLlmContribution pageNo b = [] := by
  intro n b h
  rcases h with h | h
  · constructor <;> simp [blockRuleContribution, blockLlmContribution, h]
  · constructor <;> simp [blockRuleContribution, blockLlmContribution, h]

/-- Witness for C9: a concrete error-flagged block contributes nothing. -/
theorem c9_witness :
    (fallbackBlock (str "[Ошибка: нет данных]")).hasError = true ∧
    blockRuleContribution (fallbackBlock (str "[Ошибка: нет данных]")) = [] ∧
    blockLlmContribution 1 (fallbackBlock (str "[Ошибка: нет данных]")) = [] := by
  have h : (fallbackBlock (str "[Ошибка: нет данных]")).hasError = true := by decide
  have h2 := c9_error_and_image_blocks_excluded 1 _ (Or.inl h)
  exact ⟨h, h2.1, h2.2⟩

/- ─────────────────────  Merge/dedup lemmas (claim C4)  ───────────────────── -/

theorem dedupPass_sublist (seen : List Str) (l : List MaterialFactItem) :
    (dedupPass seen l).2.Sublist l := by
  induction l generalizing seen with
  | nil => simp [dedupPass]
  | cons it its ih =>
    rw [dedupPass]
    split
    · exact (ih seen).cons _
    · exact (ih _).cons₂ _

theorem dedupPass_seen_mono {seen : List Str} {k : Str} (l : List MaterialFactItem)
    (h : k ∈ seen) : k ∈ (dedupPass seen l).1 := by
  induction l generalizing seen with
  | nil => simpa [dedupPass] using h
  | cons it its ih =>
    rw [dedupPass]
    split
    · exact ih h
    · exact ih (by simp [h])

theorem mem_key_dedupPass (seen : List Str) (l : List MaterialFactItem) :
    ∀ x ∈ l, dedupKey x ∈ (dedupPass seen l).1 := by
  induction l generalizing seen with
  | nil => simp
  | cons it its ih =>
    intro x hx
    rw [dedupPass]
    split
    · rename_i hin
      rcases List.mem_cons.mp hx with rfl | hx2
      · exact dedupPass_seen_mono its hin
      · exact ih seen x hx2
    · rcases List.mem_cons.mp hx with rfl | hx2
      · exact dedupPass_seen_mono its (by simp)
      · exact ih _ x hx2

theorem dedupPass_out_notin_seen (seen : List Str) (l : List MaterialFactItem) :
    ∀ y ∈ (dedupPass seen l).2, dedupKey y ∉ seen := by
  induction l generalizing seen with
  | nil => simp [dedupPass]
  | cons it its ih =>
    intro y hy
    rw [dedupPass] at hy
    split at hy
    · exact ih seen y hy
    · rename_i hnin
      rcases List.mem_cons.mp hy with rfl | hy2
      · exact hnin
      · intro hm
        exact ih _ y hy2 (by simp [hm])

theorem dedupPass_pairwise (seen : List Str) (l : List MaterialFactItem) :
    (dedupPass seen l).2.Pairwise (fun x y => dedupKey x ≠ dedupKey y) := by
  induction l generalizing seen with
  | nil => simp [dedupPass]
  | cons it its ih =>
    rw [dedupPass]
    split
    · exact ih seen
    · refine List.Pairwise.cons (fun y hy => ?_) (ih _)
      have := dedupPass_out_notin_seen _ its y hy
      intro he
      exact this (by simp [← he])

/-- C4: `mergeResults` returns a deduplicated ordered union — the kept
rule-based items come first, every kept LLM item's dedup key differs from
every rule-based key, all kept keys are pairwise distinct, merging two empty
lists yields the empty list, and the concrete `Кирпич` scenario keeps
exactly the rule-based item. -/
theorem c4_merge_dedup :
    mergeResults [] [] = [] ∧
    (∀ ruleBased llmItems : List MaterialFactItem, ∃ a b,
      mergeResults ruleBased llmItems = a ++ b ∧ a.Sublist ruleBased ∧
      b.Sublist llmItems ∧
      (∀ y ∈ b, ∀ x ∈ ruleBased, dedupKey y ≠ dedupKey x) ∧
      (mergeResults ruleBased llmItems).Pairwise (fun x y => dedupKey x ≠ dedupKey y)) ∧
    mergeResults [ruleKirpich] [llmKirpich] = [ruleKirpich] := by
  refine ⟨rfl, ?_, by decide⟩
  intro rb llm
  refine ⟨(dedupPass [] rb).2, (dedupPass (dedupPass [] rb).1 llm).2, rfl,
    dedupPass_sublist _ _, dedupPass_sublist _ _, ?_, ?_⟩
  · intro y hy x hx
    have h1 := dedupPass_out_notin_seen _ _ y hy
    have h2 := mem_key_dedupPass [] rb x hx
    intro he
    exact h1 (he ▸ h2)
  · rw [show mergeResults rb llm =
      (dedupPass [] rb).2 ++ (dedupPass (dedupPass [] rb).1 llm).2 from rfl,
      List.pairwise_append]
    refine ⟨dedupPass_pairwise _ _, dedupPass_pairwise _ _, ?_⟩
    intro x hx y hy
    have hxrb := (dedupPass_sublist [] rb).subset hx
    have h2 := mem_key_dedupPass [] rb x hxrb
    have h1 := dedupPass_out_notin_seen _ _ y hy
    intro he
    exact h1 (he ▸ h2)

/-- Witness for C4: the merge decomposition at the concrete one-item lists. -/
theorem c4_witness :
    ∃ a b, mergeResults [ruleKirpich] [llmKirpich] = a ++ b ∧
      a.Sublist [ruleKirpich] ∧ b.Sublist [llmKirpich] ∧
      (∀ y ∈ b, ∀ x ∈ [ruleKirpich], dedupKey y ≠ dedupKey x) ∧
      (mergeResults [ruleKirpich] [llmKirpich]).Pairwise
        (fun x y => dedupKey x ≠ dedupKey y) :=
  c4_merge_dedup.2.1 [ruleKirpich] [llmKirpich]

/- ─────────────────────  Classifier lemmas (claim C6)  ───────────────────── -/

theorem startsWithSeq_iff {n h : Str} :
    startsWithSeq n h = true ↔ ∃ post, h = n ++ post := by
  induction n generalizing h with
  | nil => exact iff_of_true rfl ⟨h, rfl⟩
  | cons a as ih =>
    cases h with
    | nil =>
      rw [startsWithSeq]
      simp
    | cons b bs =>
      rw [startsWithSeq]
      simp only [Bool.and_eq_true, decide_eq_true_eq, ih]
      constructor
      · rintro ⟨rfl, post, rfl⟩
        exact ⟨post, rfl⟩
      · rintro ⟨post, he⟩
        rw [List.cons_append] at he
        obtain ⟨rfl, rfl⟩ := List.cons.inj he
        exact ⟨rfl, post, rfl⟩

theorem containsSeq_iff {n h : Str} :
    containsSeq n h = true ↔ ∃ pre post, h = pre ++ (n ++ post) := by
  induction h with
  | nil =>
    rw [containsSeq]
    cases n with
    | nil => exact iff_of_true rfl ⟨[], [], rfl⟩
    | cons a as => simp
  | cons c cs ih =>
    rw [containsSeq]
    simp only [Bool.or_eq_true, startsWithSeq_iff, ih]
    constructor
    · rintro (⟨post, he⟩ | ⟨pre, post, he⟩)
      · exact ⟨[], post, by simp [he]⟩
      · exact ⟨c :: pre, post, by simp [he]⟩
    · rintro ⟨pre, post, he⟩
      cases pre with
      | nil => exact Or.inl ⟨post, by simpa using he⟩
      | cons p ps =>
        rw [List.cons_append] at he
        obtain ⟨rfl, rfl⟩ := List.cons.inj he
        exact Or.inr ⟨ps, post, rfl⟩

theorem joinSp_decompose {hs : List Str} {col : Str} (h : col ∈ hs) :
    ∃ pre post, classifierJoined.joinSp hs = pre ++ (col ++ post) := by
  induction hs with
  | nil => simp at h
  | cons a rest ih =>
    rcases List.mem_cons.mp h with rfl | h2
    · cases rest with
      | nil => exact ⟨[], [], by simp [classifierJoined.joinSp]⟩
      | cons b bs =>
        exact ⟨[], ' ' :: classifierJoined.joinSp (b :: bs), by
          simp [classifierJoined.joinSp]⟩
    · obtain ⟨pre, post, he⟩ := ih h2
      cases rest with
      | nil => simp at h2
      | cons b bs =>
        refine ⟨a ++ ' ' :: pre, post, ?_⟩
        rw [show classifierJoined.joinSp (a :: b :: bs) =
          a ++ ' ' :: classifierJoined.joinSp (b :: bs) from rfl, he]
        simp

theorem mem_header_contains_joined {headers : List Str} {col kw : Str}
    (hcol : col ∈ headers.map normHeader) (hkw : containsSeq kw col = true) :
    containsSeq kw (classifierJoined headers) = true := by
  obtain ⟨p2, q2, he2⟩ := containsSeq_iff.mp hkw
  obtain ⟨pre, post, he⟩ := joinSp_decompose hcol
  refine containsSeq_iff.mpr ⟨pre ++ p2, q2 ++ post, ?_⟩
  rw [show classifierJoined headers = classifierJoined.joinSp (headers.map normHeader)
    from rfl, he, he2]
  simp

theorem classifyTable_unknown_of_no_keywords {t : ParsedTable}
    (h : noRecognizedKeyword t.headers) : classifyTable t = .unknown := by
  have key : ∀ kw ∈ recognizedKeywords, ∀ col ∈ t.headers.map normHeader,
      containsSeq kw col = false := by
    intro kw hkw col hcol
    cases hc : containsSeq kw col
    · rfl
    · exact absurd (mem_header_contains_joined hcol hc) (by simp [h kw hkw])
  have h1 : ∀ kw ∈ recognizedKeywords,
      (t.headers.map normHeader).any (containsSeq kw) = false := by
    intro kw hkw
    exact List.any_eq_false.mpr (fun col hcol => by simp [key kw hkw col hcol])
  have h2 : ∀ kw1 kw2, kw1 ∈ recognizedKeywords → kw2 ∈ recognizedKeywords →
      (t.headers.map normHeader).any
        (fun x => containsSeq kw1 x || containsSeq kw2 x) = false := by
    intro kw1 kw2 hk1 hk2
    refine List.any_eq_false.mpr (fun col hcol => ?_)
    simp [key kw1 hk1 col hcol, key kw2 hk2 col hcol]
  have h3 : (t.headers.map normHeader).any
      (fun x => containsSeq (str "количество") x || containsSeq (str "кол-во") x ||
        containsSeq (str "кол") x) = false := by
    refine List.any_eq_false.mpr (fun col hcol => ?_)
    simp [key (str "количество") (by decide) col hcol,
      key (str "кол-во") (by decide) col hcol, key (str "кол") (by decide) col hcol]
  have h4 : (t.headers.map normHeader).any
      (fun x => containsSeq (str "ед") x || containsSeq (str "изм") x) = false :=
    h2 _ _ (by decide) (by decide)
  have hj : ∀ kw ∈ recognizedKeywords,
      containsSeq kw (classifierJoined t.headers) = false := fun kw hkw => h kw hkw
  simp only [classifyTable,
    h1 (str "изм") (by decide), h1 (str "наименование") (by decide),
    h1 (str "площадь") (by decide), h1 (str "поз") (by decide),
    h1 (str "марка") (by decide), h1 (str "количество") (by decide),
    h1 (str "пол") (by decide),
    h2 (str "подп") (str "дата") (by decide) (by decide),
    h2 (str "№ пом") (str "номер пом") (by decide) (by decide),
    h2 (str "обозначение") (str "наименование") (by decide) (by decide),
    h2 (str "кол") (str "шт") (by decide) (by decide),
    h2 (str "наименование") (str "назначение") (by decide) (by decide),
    h3, h4,
    hj (str "тип пола") (by decide), hj (str "тип покрытия") (by decide),
    hj (str "покрыт") (by decide),
    Bool.false_and, Bool.and_false, Bool.false_or, Bool.or_false, if_false,
    Bool.false_eq_true, ite_false]

/-- C6: `classifyTable` is a deterministic function of the header cells with
first-match-wins precedence — the four listed header sets classify to
`change_log`, `material_qty`, `spec_elements` and `element_spec`
respectively, equal headers give equal categories, and headers containing
none of the recognized keywords classify to `unknown`. -/
theorem c6_classifier_first_match :
    classifyTable (headerOnlyTable [str "Изм.", str "Подпись", str "Дата"])
      = .change_log ∧
    classifyTable (headerOnlyTable [str "Наименование", str "Кол-во", str "Ед.изм."])
      = .material_qty ∧
    classifyTable (headerOnlyTable
      [str "Поз.", str "Обозначение", str "Наименование", str "Кол-во"])
      = .spec_elements ∧
    classifyTable (headerOnlyTable [str "Марка", str "Кол-во"]) = .element_spec ∧
    (∀ t1 t2 : ParsedTable, t1.headers = t2.headers →
      classifyTable t1 = classifyTable t2) ∧
    (∀ t : ParsedTable, noRecognizedKeyword t.headers → classifyTable t = .unknown) := by
  refine ⟨by decide, by decide, by decide, by decide, ?_,
    fun t h => classifyTable_unknown_of_no_keywords h⟩
  intro t1 t2 he
  simp only [classifyTable, he]

/-- Witness for C6: keyword-free Latin headers classify to `unknown` via the
theorem. -/
theorem c6_witness :
    noRecognizedKeyword [str "alpha", str "beta"] ∧
    classifyTable (headerOnlyTable [str "alpha", str "beta"]) = .unknown :=
  ⟨by unfold noRecognizedKeyword; decide, c6_classifier_first_match.2.2.2.2.2
    (headerOnlyTable [str "alpha", str "beta"]) (by unfold noRecognizedKeyword; decide)⟩

/- ─────────────────  Rule-based extractor lemmas (claim C7)  ───────────────── -/

theorem ruleTableItems_other_empty {t : ParsedTable}
    (h1 : classifyTable t ≠ .material_qty) (h2 : classifyTable t ≠ .element_spec)
    (h3 : classifyTable t ≠ .spec_elements) : ruleTableItems t = [] := by
  unfold ruleTableItems
  cases hc : classifyTable t <;> simp_all [isExtractableCategory]

theorem ruleTableItems_cases {t : ParsedTable} {it : MaterialFactItem}
    (h : it ∈ ruleTableItems t) :
    (classifyTable t = .material_qty ∧ it ∈ extractMaterialQty t) ∨
    (classifyTable t = .element_spec ∧ it ∈ extractElementSpec t) ∨
    (classifyTable t = .spec_elements ∧ it ∈ extractSpecElements t) := by
  unfold ruleTableItems at h
  cases hc : classifyTable t <;> rw [hc] at h <;>
    simp only [isExtractableCategory] at h <;> simp at h
  · exact Or.inl ⟨rfl, h⟩
  · exact Or.inr (Or.inr ⟨rfl, h⟩)
  · exact Or.inr (Or.inl ⟨rfl, h⟩)

theorem mqRowItem_fields {ni : Nat} {qtyIdx unitIdx : Option Nat} {row : List Str}
    {it : MaterialFactItem} (h : mqRowItem ni qtyIdx unitIdx row = some it) :
    it.confidence = mkRat 95 100 ∧ it.unit = idxCell unitIdx row := by
  unfold mqRowItem at h
  repeat' first
    | split at h
    | dsimp only [] at h
  all_goals try exact Option.noConfusion h
  all_goals obtain rfl := Option.some.inj h
  all_goals exact ⟨rfl, rfl⟩

theorem esRowItem_fields {markIdx descIdx qtyIdx noteIdx : Option Nat} {row : List Str}
    {it : MaterialFactItem} (h : esRowItem markIdx descIdx qtyIdx noteIdx row = some it) :
    it.unit = some (str "шт") ∧ it.confidence = mkRat 9 10 := by
  unfold esRowItem at h
  repeat' first
    | split at h
    | dsimp only [] at h
  all_goals try exact Option.noConfusion h
  all_goals obtain rfl := Option.some.inj h
  all_goals exact ⟨rfl, rfl⟩

theorem seRowItem_fields {pi : Nat} {posIdx designationIdx qtyIdx noteIdx : Option Nat}
    {row : List Str} {it : MaterialFactItem}
    (h : seRowItem pi posIdx designationIdx qtyIdx noteIdx row = some it) :
    it.unit = some (str "шт") ∧ it.confidence = mkRat 9 10 := by
  unfold seRowItem at h
  repeat' first
    | split at h
    | dsimp only [] at h
  all_goals try exact Option.noConfusion h
  all_goals obtain rfl := Option.some.inj h
  all_goals exact ⟨rfl, rfl⟩

theorem mem_extractMaterialQty {t : ParsedTable} {it : MaterialFactItem}
    (h : it ∈ extractMaterialQty t) :
    it.confidence = mkRat 95 100 ∧ ∃ row ∈ t.rows, it.unit = mqUnitOf t row := by
  unfold extractMaterialQty at h
  dsimp only [] at h
  split at h
  · simp at h
  · obtain ⟨row, hrow, heq⟩ := List.mem_filterMap.mp h
    obtain ⟨hc, hu⟩ := mqRowItem_fields heq
    exact ⟨hc, row, hrow, hu⟩

theorem mem_extractElementSpec {t : ParsedTable} {it : MaterialFactItem}
    (h : it ∈ extractElementSpec t) :
    it.unit = some (str "шт") ∧ it.confidence = mkRat 9 10 := by
  unfold extractElementSpec at h
  dsimp only [] at h
  split at h
  · simp at h
  · obtain ⟨row, hrow, heq⟩ := List.mem_filterMap.mp h
    exact esRowItem_fields heq

theorem mem_extractSpecElements {t : ParsedTable} {it : MaterialFactItem}
    (h : it ∈ extractSpecElements t) :
    it.unit = some (str "шт") ∧ it.confidence = mkRat 9 10 := by
  unfold extractSpecElements at h
  dsimp only [] at h
  split at h
  · simp at h
  · obtain ⟨row, hrow, heq⟩ := List.mem_filterMap.mp h
    exact seRowItem_fields heq

/-- C7: `ruleBasedExtract` emits items only from tables classified
`material_qty`, `element_spec` or `spec_elements` (every other category
contributes zero items); items of a `material_qty` table carry confidence
0.95 and a unit read from the table's own unit column (null when absent);
items of the other two categories carry the literal unit `шт` and confidence
0.9 regardless of any unit-like column. -/
theorem c7_rule_extractor_fields :
    (∀ b : ParsedBlock, ruleBasedExtract b = b.tables.flatMap ruleTableItems) ∧
    (∀ t : ParsedTable, classifyTable t ≠ .material_qty →
      classifyTable t ≠ .element_spec → classifyTable t ≠ .spec_elements →
      ruleTableItems t = []) ∧
    (∀ (t : ParsedTable) (it : MaterialFactItem), it ∈ ruleTableItems t →
      (classifyTable t = .material_qty ∧ it ∈ extractMaterialQty t) ∨
      (classifyTable t = .element_spec ∧ it ∈ extractElementSpec t) ∨
      (classifyTable t = .spec_elements ∧ it ∈ extractSpecElements t)) ∧
    (∀ (t : ParsedTable) (it : MaterialFactItem), it ∈ extractMaterialQty t →
      it.confidence = (0.95 : ℚ) ∧ ∃ row ∈ t.rows, it.unit = mqUnitOf t row) ∧
    (∀ (t : ParsedTable) (it : MaterialFactItem), it ∈ extractElementSpec t →
      it.unit = some (str "шт") ∧ it.confidence = (0.9 : ℚ)) ∧
    (∀ (t : ParsedTable) (it : MaterialFactItem), it ∈ extractSpecElements t →
      it.unit = some (str "шт") ∧ it.confidence = (0.9 : ℚ)) := by
  have b95 : mkRat 95 100 = (0.95 : ℚ) := by rw [Rat.mkRat_eq_div]; norm_num
  have b9 : mkRat 9 10 = (0.9 : ℚ) := by rw [Rat.mkRat_eq_div]; norm_num
  refine ⟨fun b => rfl, fun t h1 h2 h3 => ruleTableItems_other_empty h1 h2 h3,
    fun t it h => ruleTableItems_cases h, ?_, ?_, ?_⟩
  · intro t it h
    obtain ⟨hc, hu⟩ := mem_extractMaterialQty h
    exact ⟨b95 ▸ hc, hu⟩
  · intro t it h
    obtain ⟨hu, hc⟩ := mem_extractElementSpec h
    exact ⟨hu, b9 ▸ hc⟩
  · intro t it h
    obtain ⟨hu, hc⟩ := mem_extractSpecElements h
    exact ⟨hu, b9 ▸ hc⟩

/-- Witness for C7: the concrete `Марка | Наименование | Кол-во | Примечание`
table classifies to `element_spec` and its extracted item carries unit `шт`
and confidence 0.9, via the theorem. -/
theorem c7_witness :
    (extractElementSpec (headerOnlyTableRows
        [str "Марка", str "Наименование", str "Кол-во"]
        [[str "В1", str "Воронка водосточная", str "4"]])).length = 1 ∧
    ∀ it ∈ extractElementSpec (headerOnlyTableRows
        [str "Марка", str "Наименование", str "Кол-во"]
        [[str "В1", str "Воронка водосточная", str "4"]]),
      it.unit = some (str "шт") ∧ it.confidence = (0.9 : ℚ) := by
  refine ⟨by decide, fun it h => ?_⟩
  exact (c7_rule_extractor_fields.2.2.2.2.1) _ it h

/- ─────────────────  Block invariants (claim C8)  ───────────────── -/

theorem splitOnChar_ne_nil (sep : Char) (s : Str) : splitOnChar sep s ≠ [] := by
  cases s with
  | nil => simp [splitOnChar]
  | cons c cs =>
    simp only [splitOnChar]
    split
    · simp
    · split <;> simp

theorem splitOnChar_no_sep {sep : Char} {l : Str} (h : ∀ c ∈ l, c ≠ sep) :
    splitOnChar sep l = [l] := by
  induction l with
  | nil => rfl
  | cons c cs ih =>
    have hc : c ≠ sep := h c (List.mem_cons_self c cs)
    rw [splitOnChar, if_neg hc, ih (fun x hx => h x (List.mem_cons_of_mem _ hx))]

theorem splitOnChar_append_sep (sep : Char) (t u : Str) :
    splitOnChar sep (t ++ sep :: u) = splitOnChar sep t ++ splitOnChar sep u := by
  induction t with
  | nil => simp [splitOnChar]
  | cons c cs ih =>
    rw [List.cons_append]
    by_cases hc : c = sep
    · subst hc
      rw [splitOnChar, if_pos rfl, ih, splitOnChar, if_pos rfl, List.cons_append]
    · obtain ⟨g, gs, hgs⟩ := List.exists_cons_of_ne_nil (splitOnChar_ne_nil sep cs)
      have hsp : splitOnChar sep (c :: cs) = (c :: g) :: gs := by
        rw [splitOnChar, if_neg hc, hgs]
      rw [splitOnChar, if_neg hc, ih, hgs, hsp, List.cons_append]
      rfl

theorem splitOnChar_snoc_sep (sep : Char) (t : Str) :
    splitOnChar sep (t ++ [sep]) = splitOnChar sep t ++ [[]] := by
  induction t with
  | nil => simp [splitOnChar]
  | cons c cs ih =>
    rw [List.cons_append]
    by_cases hc : c = sep
    · subst hc
      rw [splitOnChar, if_pos rfl, ih, splitOnChar, if_pos rfl, List.cons_append]
    · obtain ⟨g, gs, hgs⟩ := List.exists_cons_of_ne_nil (splitOnChar_ne_nil sep cs)
      rw [splitOnChar, if_neg hc, ih, hgs, splitOnChar, if_neg hc, hgs]
      rfl

theorem splitOnChar_snoc_nonsep {sep c : Char} (hc : c ≠ sep) (t : Str) :
    splitOnChar sep (t ++ [c]) = appendLast c (splitOnChar sep t) := by
  induction t with
  | nil => simp [splitOnChar, if_neg hc, appendLast]
  | cons a cs ih =>
    rw [List.cons_append]
    obtain ⟨g, gs, hgs⟩ := List.exists_cons_of_ne_nil (splitOnChar_ne_nil sep cs)
    by_cases ha : a = sep
    · subst ha
      rw [splitOnChar, if_pos rfl, ih, splitOnChar, if_pos rfl, hgs]
      rfl
    · rw [splitOnChar, if_neg ha, ih, hgs, splitOnChar, if_neg ha, hgs]
      cases gs with
      | nil => rfl
      | cons h hs => rfl

theorem appendLast_snoc (c : Char) (xs : List Str) (g : Str) :
    appendLast c (xs ++ [g]) = xs ++ [g ++ [c]] := by
  induction xs with
  | nil => rfl
  | cons x xs ih =>
    obtain ⟨y, t, he⟩ := List.exists_cons_of_ne_nil
      (show xs ++ [g] ≠ [] by simp)
    simp only [List.cons_append]
    rw [he]
    show x :: appendLast c (y :: t) = _
    rw [← he, ih]

theorem splitOnChar_reverse (sep : Char) (s : Str) :
    splitOnChar sep s.reverse = ((splitOnChar sep s).map List.reverse).reverse := by
  induction s with
  | nil => rfl
  | cons c cs ih =>
    rw [List.reverse_cons]
    by_cases hc : c = sep
    · subst hc
      rw [splitOnChar_snoc_sep, ih, splitOnChar, if_pos rfl, List.map_cons,
        List.reverse_cons, List.reverse_nil]
    · obtain ⟨g, gs, hgs⟩ := List.exists_cons_of_ne_nil (splitOnChar_ne_nil sep cs)
      have hsp : splitOnChar sep (c :: cs) = (c :: g) :: gs := by
        rw [splitOnChar, if_neg hc, hgs]
      rw [splitOnChar_snoc_nonsep hc, ih, hgs, hsp, List.map_cons,
        List.reverse_cons, appendLast_snoc, List.map_cons, List.reverse_cons]
      simp

theorem tail_dropLast_comm (l : Str) : l.dropLast.tail = l.tail.dropLast := by
  match l with
  | [] => rfl
  | [a] => rfl
  | a :: b :: t => rfl

theorem isTableRow_reverse (l : Str) : isTableRow l.reverse = isTableRow l := by
  unfold isTableRow
  rw [List.length_reverse, List.head?_reverse, List.getLast?_reverse,
    List.drop_one, List.drop_one, List.tail_reverse, List.dropLast_reverse,
    tail_dropLast_comm, List.all_reverse]
  rw [Bool.eq_iff_iff]
  simp only [Bool.and_eq_true]
  tauto

theorem isTableRow_no_lineterm {l : Str} (h : isTableRow l = true) :
    ∀ c ∈ l, isLineTerm c = false := by
  simp only [isTableRow, Bool.and_eq_true, beq_iff_eq, List.all_eq_true,
    Bool.not_eq_true', decide_eq_true_eq] at h
  obtain ⟨⟨⟨hlen, hhead⟩, hlast⟩, hmid⟩ := h
  obtain ⟨t, rfl⟩ := List.head?_eq_some_iff.mp hhead
  have htne : t ≠ [] := by
    intro he
    subst he
    simp at hlen
  intro c hc
  rcases List.mem_cons.mp hc with rfl | hct
  · decide
  · have hdec := List.dropLast_append_getLast htne
    rw [← hdec] at hct
    rcases List.mem_append.mp hct with hc1 | hc2
    · exact hmid c (by simpa [List.drop_one] using hc1)
    · have hgl : t.getLast htne = '|' := by
        obtain ⟨x, xs, rfl⟩ := List.exists_cons_of_ne_nil htne
        rw [List.getLast?_cons_cons, List.getLast?_eq_getLast _ htne] at hlast
        exact Option.some.inj hlast
      rw [List.mem_singleton.mp hc2, hgl]
      decide

theorem mem_split_joinLines {ls : List Str} {l : Str} (hmem : l ∈ ls)
    (hnl : ∀ c ∈ l, c ≠ '\n') : l ∈ splitOnChar '\n' (joinLines ls) := by
  induction ls with
  | nil => simp at hmem
  | cons a rest ih =>
    rcases List.mem_cons.mp hmem with rfl | h2
    · cases rest with
      | nil =>
        rw [show joinLines [l] = l from rfl, splitOnChar_no_sep hnl]
        simp
      | cons b bs =>
        rw [show joinLines (l :: b :: bs) = l ++ '\n' :: joinLines (b :: bs) from rfl,
          splitOnChar_append_sep, splitOnChar_no_sep hnl]
        simp
    · cases rest with
      | nil => simp at h2
      | cons b bs =>
        rw [show joinLines (a :: b :: bs) = a ++ '\n' :: joinLines (b :: bs) from rfl,
          splitOnChar_append_sep]
        exact List.mem_append_right _ (ih h2)

theorem anyRow_dropWhile {s : Str}
    (h : (splitOnChar '\n' s).any isTableRow = true) :
    (splitOnChar '\n' (s.dropWhile isJsWs)).any isTableRow = true := by
  induction s with
  | nil => exact h
  | cons c cs ih =>
    by_cases hw : isJsWs c = true
    · rw [List.dropWhile_cons, if_pos hw]
      apply ih
      by_cases hn : c = '\n'
      · subst hn
        rw [splitOnChar, if_pos rfl, List.any_cons,
          show isTableRow ([] : Str) = false from by decide, Bool.false_or] at h
        exact h
      · obtain ⟨g, gs, hgs⟩ := List.exists_cons_of_ne_nil (splitOnChar_ne_nil '\n' cs)
        have hsp : splitOnChar '\n' (c :: cs) = (c :: g) :: gs := by
          rw [splitOnChar, if_neg hn, hgs]
        rw [hsp, List.any_cons] at h
        have hcp : c ≠ '|' := by
          intro he
          subst he
          exact absurd hw (by decide)
        have hicg : isTableRow (c :: g) = false := by
          unfold isTableRow
          rw [show (c :: g).head? = some c from rfl,
            show (some c == some '|') = false from by simp [hcp]]
          simp
        rw [hicg, Bool.false_or] at h
        rw [hgs, List.any_cons]
        simp [h]
    · rw [List.dropWhile_cons, if_neg hw]
      exact h

theorem anyRow_reverse (s : Str) :
    (splitOnChar '\n' s.reverse).any isTableRow = (splitOnChar '\n' s).any isTableRow := by
  rw [splitOnChar_reverse, List.any_reverse, List.any_map]
  have hf : (isTableRow ∘ List.reverse) = (isTableRow : Str → Bool) := by
    funext g
    exact isTableRow_reverse g
  rw [hf]

theorem anyRow_jsTrim {s : Str} (h : (splitOnChar '\n' s).any isTableRow = true) :
    (splitOnChar '\n' (jsTrim s)).any isTableRow = true := by
  unfold jsTrim
  rw [anyRow_reverse]
  apply anyRow_dropWhile
  rw [anyRow_reverse]
  exact anyRow_dropWhile h

theorem anyRow_joinLines {ls : List Str} (h : ls.any isTableRow = true) :
    (splitOnChar '\n' (joinLines ls)).any isTableRow = true := by
  obtain ⟨l, hl, hrow⟩ := List.any_eq_true.mp h
  have hnl : ∀ c ∈ l, c ≠ '\n' := by
    intro c hc he
    have hlt := isTableRow_no_lineterm hrow c hc
    subst he
    exact absurd hlt (by decide)
  exact List.any_eq_true.mpr ⟨l, mem_split_joinLines hl hnl, hrow⟩

theorem dropPrefixSeq_sound {p : Str} {s r : Str} (h : dropPrefixSeq p s = some r) :
    s = p ++ r := by
  induction p generalizing s with
  | nil => simpa [dropPrefixSeq] using Option.some.inj h
  | cons a ps ih =>
    cases s with
    | nil => exact Option.noConfusion h
    | cons c cs =>
      rw [dropPrefixSeq] at h
      split at h
      · rename_i hac
        rw [List.cons_append, ← ih h, hac]
      · exact Option.noConfusion h

theorem ErrMarkerIn_cons {c : Char} {cs : Str} (h : ErrMarkerIn cs) :
    ErrMarkerIn (c :: cs) := by
  obtain ⟨u, v, w, he, hv⟩ := h
  exact ⟨c :: u, v, w, by rw [List.cons_append, ← he], hv⟩

theorem tryErrAt_sound {s : Str} {m : Str} (h : tryErrAt s = some m) :
    ErrMarkerIn s := by
  unfold tryErrAt at h
  split at h
  · exact Option.noConfusion h
  · rename_i rest hd
    dsimp only [] at h
    split at h
    · rename_i w hw
      refine ⟨[], rest.takeWhile (· ≠ ']'), w, ?_, ?_⟩
      · rw [List.nil_append, dropPrefixSeq_sound hd, ← hw,
          List.takeWhile_append_dropWhile]
      · intro c hc
        have hp := List.mem_takeWhile_imp hc
        exact of_decide_eq_true hp
    · exact Option.noConfusion h

theorem findErrMatch_sound {s : Str} {m : Str} (h : findErrMatch s = some m) :
    ErrMarkerIn s := by
  induction s with
  | nil =>
    rw [show findErrMatch [] = none from by decide] at h
    exact Option.noConfusion h
  | cons c cs ih =>
    rw [findErrMatch] at h
    split at h
    · rename_i m' hm'
      exact tryErrAt_sound (hm'.trans (congrArg some (Option.some.inj h)))
    · exact ErrMarkerIn_cons (ih h)

theorem buildBlock_pred (uid : Str) (ty : BlockType) (lines : List Str) :
    BlockPred (buildBlock uid ty lines) := by
  refine ⟨?_, ?_, ?_⟩
  · intro he
    have he' : (findErrMatch (jsTrim (joinLines lines))).isSome = true := he
    obtain ⟨m, hm⟩ := Option.isSome_iff_exists.mp he'
    show ErrMarkerIn (jsTrim (joinLines lines))
    exact findErrMatch_sound hm
  · intro ht
    cases hat : List.any lines isTableRow with
    | false => simp [buildBlock, hat] at ht
    | true => simp [buildBlock, hat]
  · intro ht
    have hat : List.any lines isTableRow = true := ht
    show (splitOnChar '\n' (jsTrim (joinLines lines))).any isTableRow = true
    exact anyRow_jsTrim (anyRow_joinLines hat)

theorem fallbackBlock_pred (s : Str) : BlockPred (fallbackBlock s) := by
  refine ⟨?_, ?_, ?_⟩
  · intro he
    have he' : (findErrMatch s).isSome = true := he
    obtain ⟨m, hm⟩ := Option.isSome_iff_exists.mp he'
    show ErrMarkerIn s
    exact findErrMatch_sound hm
  · intro ht
    exact absurd rfl ht
  · intro ht
    have ht' : isTableRow s = true := ht
    have hns : ∀ c ∈ s, c ≠ '\n' := by
      intro c hc he
      have hlt := isTableRow_no_lineterm ht' c hc
      subst he
      exact absurd hlt (by decide)
    show (splitOnChar '\n' s).any isTableRow = true
    rw [splitOnChar_no_sep hns, List.any_cons, ht']
    rfl

theorem StInv_init : StInv initState :=
  ⟨fun p hp => absurd hp (List.not_mem_nil p), fun _ h => Option.noConfusion h⟩

theorem finalizeBlock_inv {st : ScanState} (h : StInv st) : StInv (finalizeBlock st) := by
  unfold finalizeBlock
  split
  · rename_i cb pg hcb hcp
    refine ⟨h.1, ?_⟩
    intro pg' hpg' b hb
    obtain rfl := (Option.some.inj hpg').symm
    rcases List.mem_append.mp hb with hb1 | hb2
    · exact h.2 pg hcp b hb1
    · rw [List.mem_singleton.mp hb2]
      exact buildBlock_pred cb.uid cb.type cb.lines
  · exact h

theorem finalizePage_inv {st : ScanState} (h : StInv st) : StInv (finalizePage st) := by
  have h1 := finalizeBlock_inv h
  unfold finalizePage
  dsimp only []
  split
  · rename_i pg hpg
    refine ⟨?_, ?_⟩
    · intro p hp b hb
      rcases List.mem_append.mp hp with hp1 | hp2
      · exact h1.1 p hp1 b hb
      · rw [List.mem_singleton.mp hp2] at hb
        exact h1.2 pg hpg b hb
    · intro pg' hc
      exact Option.noConfusion hc
  · exact ⟨h1.1, h1.2⟩

theorem pageMarkerStep_inv {st : ScanState} (n : Nat) (h : StInv st) :
    StInv (pageMarkerStep st n) := by
  have h1 := finalizePage_inv h
  refine ⟨h1.1, ?_⟩
  intro pg hpg b hb
  obtain rfl := (Option.some.inj hpg).symm
  exact absurd hb (List.not_mem_nil b)

theorem mapCurPage_inv {st : ScanState} {f : ParsedPage → ParsedPage}
    (hf : ∀ pg, (f pg).blocks = pg.blocks) (h : StInv st) : StInv (mapCurPage st f) := by
  refine ⟨h.1, ?_⟩
  intro pg hpg b hb
  rcases Option.map_eq_some'.mp hpg with ⟨a, ha, rfl⟩
  rw [hf a] at hb
  exact h.2 a ha b hb

theorem metaStep_inv {st st' : ScanState} {l : Str}
    (h : metaStep st l = some st') (hi : StInv st) : StInv st' := by
  unfold metaStep at h
  split at h
  · split at h
    · obtain rfl := Option.some.inj h
      exact mapCurPage_inv (fun pg => rfl) hi
    · split at h
      · obtain rfl := Option.some.inj h
        exact mapCurPage_inv (fun pg => rfl) hi
      · split at h
        · obtain rfl := Option.some.inj h
          exact hi
        · exact Option.noConfusion h
  · exact Option.noConfusion h

theorem blockMarkerStep_inv {st : ScanState} (tu : BlockType × Str) (h : StInv st) :
    StInv (blockMarkerStep st tu) := by
  have h1 := finalizeBlock_inv h
  unfold blockMarkerStep
  dsimp only []
  split
  · refine ⟨h1.1, ?_⟩
    intro pg hpg b hb
    obtain rfl := (Option.some.inj hpg).symm
    exact absurd hb (List.not_mem_nil b)
  · exact ⟨h1.1, h1.2⟩

theorem accumStep_inv {st : ScanState} (l : Str) (h : StInv st) :
    StInv (accumStep st l) := by
  unfold accumStep
  split
  · exact ⟨h.1, h.2⟩
  · exact h

theorem stepLine_inv {st : ScanState} (l : Str) (h : StInv st) :
    StInv (stepLine st l) := by
  unfold stepLine
  split
  · exact pageMarkerStep_inv _ h
  · split
    · rename_i st' hst'
      exact metaStep_inv hst' h
    · split
      · exact blockMarkerStep_inv _ h
      · exact accumStep_inv _ h

theorem foldl_stepLine_inv (lines : List Str) {st : ScanState} (h : StInv st) :
    StInv (lines.foldl stepLine st) := by
  induction lines generalizing st with
  | nil => exact h
  | cons l ls ih => exact ih (stepLine_inv l h)

theorem scanDoc_inv (lines : List Str) : StInv (scanDoc lines) :=
  finalizePage_inv (foldl_stepLine_inv lines StInv_init)

/-- C8 (amended): for every block produced by `parseDocument` (including the
fallback block), a set error flag is witnessed by a bracketed
`[Ошибка…]` marker in the block's content, a non-empty `tables` list implies
`hasTable`, and `hasTable` implies that a raw pipe-delimited table-row
pattern occurs in the block's content.  (The unamended biconditional fails:
a raw table-row pattern in the content does not imply `hasTable`, because
`hasTable` is computed from the raw content lines while `content` is
trimmed.) -/
theorem c8_block_invariants_amended (s : Str) :
    ∀ p ∈ (parseDocument s).pages, ∀ b ∈ p.blocks, BlockPred b := by
  intro p hp b hb
  rw [parseDocument_pages] at hp
  split at hp
  · rw [List.mem_singleton] at hp
    subst hp
    have hb' : b ∈ [fallbackBlock s] := hb
    rw [List.mem_singleton.mp hb']
    exact fallbackBlock_pred s
  · exact (scanDoc_inv (splitOnChar '\n' s)).1 p hp b hb

/-- Counterexample for C8 as stated: a content line with leading whitespace
is not a raw table-row line, so `hasTable` is false and `tables` is empty,
yet after the block content is trimmed the row pattern does occur in it —
refuting the claimed biconditional. -/
theorem c8_counterexample :
    ((parseDocument c8cexInput).pages.map
      (fun p => p.blocks.map (fun b => (b.hasTable, b.tables.length, rowPatternInContent b)))) =
      [[(false, 0, true)]] := by
  decide

/-- Witness for C8 (amended): the invariant instantiated at the block of the
counterexample document. -/
theorem c8_witness :
    BlockPred (((parseDocument c8cexInput).pages.headD emptyPage).blocks.headD
      (fallbackBlock c8cexInput)) :=
  c8_block_invariants_amended c8cexInput
    ((parseDocument c8cexInput).pages.headD emptyPage) (by decide)
    (((parseDocument c8cexInput).pages.headD emptyPage).blocks.headD
      (fallbackBlock c8cexInput)) (by decide)

end DocuSpec
